import Mathlib

/-!
Verification development for the byoc configuration-loading engine.

Each definition is a shallow embedding of the corresponding Python function:
  * `first`, `merge_dicts`            — src/byoc/pick.py
  * `Pipeline`, `KeyGetter`, `Getter` — src/byoc/getters.py (+ apply pipeline)
  * `PState.begin_load`/`end_load`    — src/byoc/params/param.py
  * `LState`, `loadAttr`, `reset`, …  — src/byoc/load.py (class Loader)

Machine-level values (Python objects) are abstracted as type parameters or
`Nat` identities; Python exceptions become `Except` results that carry the
exception class and the state at the moment the exception propagates.
-/

namespace Byoc

/-! ## Exception classes (src/byoc/errors.py)

`usage` models `UsageError`, `circular` models `CircularDependency` (a
subclass of `UsageError` declared in errors.py), `noValue` models
`NoValueFound`, `attributeError` models Python's builtin `AttributeError`.
`fuel` is not an exception class: it marks exhaustion of the explicit
recursion fuel of the shallow embedding and never corresponds to a raise
in the source. -/
inductive ErrKind where
  | usage
  | circular
  | noValue
  | attributeError
  | fuel
deriving DecidableEq

/-! ## Pick functions (src/byoc/pick.py)

A `ValuesIter` is modelled as the list of `(value, meta)` pairs it would
yield; the single settable `meta` slot of the iterator is modelled as the
second component of the returned pair (for `first`) or the returned meta
map (for `merge_dicts`). -/

/-- `first` from src/byoc/pick.py: take the head `(value, meta)` pair and
set the iterator's meta slot to its meta; raise `NoValueFound` when the
sequence is empty. -/
def first {α μ : Type} : List (α × μ) → Except ErrKind (α × μ)
  | [] => .error .noValue
  | x :: _ => .ok x

/-- Point update of a partial map, modelling `d[key] = value` on a Python
dict viewed as a lookup function. -/
def dictSet {κ α : Type} [DecidableEq κ] (f : κ → Option α) (k : κ) (v : α) :
    κ → Option α :=
  fun k' => if k' = k then some v else f k'

/-- Inner loop of `merge_dicts`: `for key, value in dict_.items(): if (key
not in values) or keep_last: values[key] = value; it.meta[key] = meta`. -/
def mergeDictOne {κ α μ : Type} [DecidableEq κ] (keepLast : Bool)
    (acc : (κ → Option α) × (κ → Option μ)) :
    List (κ × α) → μ → (κ → Option α) × (κ → Option μ)
  | [], _ => acc
  | (k, v) :: rest, m =>
      mergeDictOne keepLast
        (if (acc.1 k).isNone || keepLast then
          (dictSet acc.1 k v, dictSet acc.2 k m)
        else acc)
        rest m

/-- Outer loop of `merge_dicts`: `for dict_, meta in it.with_meta`. -/
def mergeGo {κ α μ : Type} [DecidableEq κ] (keepLast : Bool)
    (acc : (κ → Option α) × (κ → Option μ)) :
    List (List (κ × α) × μ) → (κ → Option α) × (κ → Option μ)
  | [] => acc
  | (d, m) :: rest => mergeGo keepLast (mergeDictOne keepLast acc d m) rest

/-- `merge_dicts` from src/byoc/pick.py: starting from empty `values` and
`it.meta` dicts, merge every mapping-valued candidate in order.  The result
is the pair (final values dict, final meta dict), each as a lookup
function. -/
def merge_dicts {κ α μ : Type} [DecidableEq κ] (keepLast : Bool)
    (cands : List (List (κ × α) × μ)) : (κ → Option α) × (κ → Option μ) :=
  mergeGo keepLast (fun _ => none, fun _ => none) cands

/-- The flattened sequence of write events `(key, value, meta-of-source)`
performed by `merge_dicts`, in program order. -/
def mergeWrites {κ α μ : Type} (cands : List (List (κ × α) × μ)) :
    List (κ × α × μ) :=
  cands.flatMap fun dm => dm.1.map fun kv => (kv.1, kv.2, dm.2)

/-- One write step on the accumulator pair. -/
def mergeStep {κ α μ : Type} [DecidableEq κ] (keepLast : Bool)
    (acc : (κ → Option α) × (κ → Option μ)) (w : κ × α × μ) :
    (κ → Option α) × (κ → Option μ) :=
  if (acc.1 w.1).isNone || keepLast then
    (dictSet acc.1 w.1 w.2.1, dictSet acc.2 w.1 w.2.2)
  else acc

theorem mergeDictOne_eq_foldl {κ α μ : Type} [DecidableEq κ] (keepLast : Bool)
    (d : List (κ × α)) (m : μ) (acc : (κ → Option α) × (κ → Option μ)) :
    mergeDictOne keepLast acc d m =
      (d.map fun kv => (kv.1, kv.2, m)).foldl (mergeStep keepLast) acc := by
  induction d generalizing acc with
  | nil => rfl
  | cons kv rest ih =>
      obtain ⟨k, v⟩ := kv
      simp only [mergeDictOne, List.map_cons, List.foldl_cons, ih, mergeStep]

theorem mergeGo_eq_foldl {κ α μ : Type} [DecidableEq κ] (keepLast : Bool)
    (cands : List (List (κ × α) × μ)) (acc : (κ → Option α) × (κ → Option μ)) :
    mergeGo keepLast acc cands =
      (mergeWrites cands).foldl (mergeStep keepLast) acc := by
  induction cands generalizing acc with
  | nil => rfl
  | cons dm rest ih =>
      obtain ⟨d, m⟩ := dm
      simp only [mergeGo, mergeWrites, List.flatMap_cons, List.foldl_append, ih,
        mergeDictOne_eq_foldl]

/-- With `keepLast = false` the first write to a key determines both its
value and its meta; writes to other keys do not interfere. -/
theorem merge_foldl_first {κ α μ : Type} [DecidableEq κ]
    (ws : List (κ × α × μ)) (acc : (κ → Option α) × (κ → Option μ)) (k : κ) :
    (((ws.foldl (mergeStep false) acc).1 k, (ws.foldl (mergeStep false) acc).2 k) =
      match acc.1 k with
      | some v => (some v, acc.2 k)
      | none =>
          match ws.find? (fun w => w.1 = k) with
          | some w => (some w.2.1, some w.2.2)
          | none => (none, acc.2 k)) := by
  induction ws generalizing acc with
  | nil =>
      cases h : acc.1 k <;> simp [h]
  | cons w rest ih =>
      obtain ⟨kw, v, m⟩ := w
      rw [List.foldl_cons, ih]
      by_cases hk : kw = k
      · subst hk
        cases h : acc.1 kw with
        | none =>
            rw [List.find?_cons_of_pos _ (by simp)]
            simp [mergeStep, h, dictSet]
        | some v' =>
            simp [mergeStep, h, dictSet]
      · rw [List.find?_cons_of_neg _ (by simp [hk])]
        cases h : acc.1 k with
        | none =>
            cases hw : acc.1 kw with
            | none => simp [mergeStep, hw, dictSet, hk, h, Ne.symm hk]
            | some v' => simp [mergeStep, hw, h]
        | some v' =>
            cases hw : acc.1 kw with
            | none => simp [mergeStep, hw, dictSet, hk, h, Ne.symm hk]
            | some v'' => simp [mergeStep, hw, h]

/-- With `keepLast = true` the last write to a key determines both its value
and its meta. -/
theorem merge_foldl_last {κ α μ : Type} [DecidableEq κ]
    (ws : List (κ × α × μ)) (acc : (κ → Option α) × (κ → Option μ)) (k : κ) :
    (((ws.foldl (mergeStep true) acc).1 k, (ws.foldl (mergeStep true) acc).2 k) =
      match ws.reverse.find? (fun w => w.1 = k) with
      | some w => (some w.2.1, some w.2.2)
      | none => (acc.1 k, acc.2 k)) := by
  induction ws generalizing acc with
  | nil => simp
  | cons w rest ih =>
      obtain ⟨kw, v, m⟩ := w
      rw [List.foldl_cons, ih]
      rw [List.reverse_cons, List.find?_append]
      by_cases hk : kw = k
      · subst hk
        cases hfind : rest.reverse.find? (fun x => x.1 = kw) with
        | none =>
            rw [List.find?_cons_of_pos _ (by simp)]
            simp [hfind, mergeStep, dictSet]
        | some w' =>
            simp [hfind, mergeStep, dictSet]
      · rw [List.find?_cons_of_neg _ (by simp [hk])]
        cases hfind : rest.reverse.find? (fun x => x.1 = k) with
        | none =>
            simp [hfind, mergeStep, dictSet, Ne.symm hk]
        | some w' =>
            simp [hfind, mergeStep, dictSet]

/-- The example candidate sequence from the spec, `[{a:1,b:2}, {a:3,c:4}]`,
with keys a, b, c encoded as 0, 1, 2 and the two sources' provenances
encoded as 10 and 20. -/
def mergeExample : List (List (Nat × Nat) × Nat) :=
  [([(0, 1), (1, 2)], 10), ([(0, 3), (2, 4)], 20)]

/-- C5: `merge_dicts` with `keepLast = false` gives, for every key, the value
of the first candidate to write that key, and with `keepLast = true` the
value of the last writer; in both cases the meta (provenance) stored for a
key is that of the candidate that set the key's final value.  Concretely,
over `[{a:1,b:2}, {a:3,c:4}]` the `keepLast = false` merge is
`{a:1,b:2,c:4}` with provenance[a] from the first source and provenance[c]
from the second, and the `keepLast = true` merge is `{a:3,b:2,c:4}` with
provenance[a] from the second source. -/
theorem C5_merge_dicts {κ α μ : Type} [DecidableEq κ] :
    (∀ (cands : List (List (κ × α) × μ)) (k : κ),
      (((merge_dicts false cands).1 k, (merge_dicts false cands).2 k) =
        match (mergeWrites cands).find? (fun w => w.1 = k) with
        | some w => (some w.2.1, some w.2.2)
        | none => (none, none)) ∧
      (((merge_dicts true cands).1 k, (merge_dicts true cands).2 k) =
        match (mergeWrites cands).reverse.find? (fun w => w.1 = k) with
        | some w => (some w.2.1, some w.2.2)
        | none => (none, none))) ∧
    ((merge_dicts false mergeExample).1 0 = some 1 ∧
     (merge_dicts false mergeExample).1 1 = some 2 ∧
     (merge_dicts false mergeExample).1 2 = some 4 ∧
     (merge_dicts false mergeExample).2 0 = some 10 ∧
     (merge_dicts false mergeExample).2 1 = some 10 ∧
     (merge_dicts false mergeExample).2 2 = some 20 ∧
     (merge_dicts true mergeExample).1 0 = some 3 ∧
     (merge_dicts true mergeExample).1 1 = some 2 ∧
     (merge_dicts true mergeExample).1 2 = some 4 ∧
     (merge_dicts true mergeExample).2 0 = some 20 ∧
     (merge_dicts true mergeExample).2 1 = some 10 ∧
     (merge_dicts true mergeExample).2 2 = some 20) := by
  constructor
  · intro cands k
    constructor
    · rw [merge_dicts, mergeGo_eq_foldl, merge_foldl_first]
    · rw [merge_dicts, mergeGo_eq_foldl, merge_foldl_last]
  · decide

/-- C6: the `first` pick applied to a non-empty candidate sequence returns
the head value and sets the provenance slot to the head's provenance
(modelled as the returned pair); applied to the empty sequence it fails
with `NoValueFound`. -/
theorem C6_first {α μ : Type} :
    (∀ (v1 : α) (p1 : μ) (rest : List (α × μ)),
      first ((v1, p1) :: rest) = .ok (v1, p1)) ∧
    first ([] : List (α × μ)) = .error ErrKind.noValue := by
  exact ⟨fun _ _ _ => rfl, rfl⟩

/-! ## Getters and the apply pipeline (src/byoc/getters.py,
src/byoc/params/param.py) -/

/-- Modelled from the spec: the apply `Pipeline` (its module,
src/byoc/apply.py, is not among the provided sources; only its import and
uses are).  Per the spec an apply pipeline is one or more transforms called
in order, the output of the previous being the input to the next, each
receiving the app and the value's meta as context. -/
def Pipeline (V A M : Type) : Type := List (V → A → M → V)

/-- Run an apply pipeline on one value, in order. -/
def applyPipeline {V A M : Type} (p : Pipeline V A M) (v : V) (app : A)
    (m : M) : V :=
  p.foldl (fun acc f => f acc app m) v

/-- A `Finder` (external interface): `iter_values(app, key)` yields
`(value, meta)` pairs. -/
structure Finder (A KT V M : Type) where
  iter_values : A → KT → List (V × M)

/-- A `Config` as seen by `Key.iter_values`: its dynamic type (for the
`isinstance` check, abstracted as a `Nat` tag) and its finders. -/
structure Config (A KT V M : Type) where
  tag : Nat
  finders : List (Finder A KT V M)

/-- The `Key` getter (src/byoc/getters.py): a config-class filter (the
`isinstance(config, self.config_cls)` test, abstracted as a predicate on
config tags), a key, and the getter's own apply pipeline. -/
structure KeyGetter (A KT V M : Type) where
  config_cls : Nat → Bool
  key : KT
  apply : Pipeline V A M

/-- `Key.iter_values`: for each config of matching class, for each of its
finders, yield each found `(value, meta)` with the value transformed by the
Key's own apply pipeline and the meta unchanged. -/
def KeyGetter.iter_values {A KT V M : Type} (g : KeyGetter A KT V M)
    (app : A) (configs : List (Config A KT V M)) : List (V × M) :=
  configs.flatMap fun c =>
    if g.config_cls c.tag then
      c.finders.flatMap fun f =>
        (f.iter_values app g.key).map fun vm =>
          (applyPipeline g.apply vm.1 app vm.2, vm.2)
    else []

/-- Getter variants used by the claims: `Key`, and `Value` (which yields a
single literal value with its definition-site meta). -/
inductive Getter (A KT V M : Type) where
  | key (g : KeyGetter A KT V M)
  | value (v : V) (meta : M)

/-- `Getter.iter_values` dispatch. -/
def Getter.iter_values {A KT V M : Type} :
    Getter A KT V M → A → List (Config A KT V M) → List (V × M)
  | .key g, app, configs => g.iter_values app configs
  | .value v m, _, _ => [(v, m)]

/-- The slice of a `param` relevant to candidate generation: its getters
and its parameter-level apply pipeline (src/byoc/params/param.py). -/
structure Param (A KT V M : Type) where
  getters : List (Getter A KT V M)
  apply : Pipeline V A M

/-- `param._iter_values`: for each getter, for each `(value, meta)` it
yields, pass the value through the parameter-level apply pipeline (with app
and meta as context) and yield it with the meta unchanged. -/
def Param.iter_values {A KT V M : Type} (p : Param A KT V M) (app : A)
    (configs : List (Config A KT V M)) : List (V × M) :=
  p.getters.flatMap fun g =>
    (g.iter_values app configs).map fun vm =>
      (applyPipeline p.apply vm.1 app vm.2, vm.2)

/-- The raw `(value, meta)` pairs produced by the finders for a `Key`
getter, before any apply pipeline runs. -/
def keyRawCandidates {A KT V M : Type} (g : KeyGetter A KT V M) (app : A)
    (configs : List (Config A KT V M)) : List (V × M) :=
  configs.flatMap fun c =>
    if g.config_cls c.tag then
      c.finders.flatMap fun f => f.iter_values app g.key
    else []

/-- C10: for a parameter whose getter is a `Key`, every candidate reaching
the pick is the finder's raw value transformed first by the Key getter's
own apply pipeline and then by the parameter-level apply pipeline, in that
order, while the paired meta is the finder's original meta, unchanged by
both stages. -/
theorem C10_key_double_apply {A KT V M : Type} (g : KeyGetter A KT V M)
    (papply : Pipeline V A M) (app : A) (configs : List (Config A KT V M)) :
    (Param.mk [Getter.key g] papply).iter_values app configs =
      (keyRawCandidates g app configs).map fun vm =>
        (applyPipeline papply (applyPipeline g.apply vm.1 app vm.2) app vm.2,
          vm.2) := by
  simp only [Param.iter_values, Getter.iter_values, KeyGetter.iter_values,
    keyRawCandidates, List.flatMap_cons, List.flatMap_nil, List.append_nil,
    List.map_flatMap]
  congr 1
  funext c
  by_cases h : g.config_cls c.tag
  · simp [h, List.map_flatMap, List.map_map, Function.comp_def]
  · simp [h]

/-! ## Parameter binding (src/byoc/params/param.py) -/

/-- Binding state of a `param`: the `_loader` reference (modelled as the
bound loader's numeric identity, `none` when unbound) and the
`_begin_count` reentrancy counter. -/
structure PState where
  loader : Option Nat
  begin_count : Int
deriving DecidableEq

/-- A fresh parameter: unbound, counter zero. -/
def pInit : PState := ⟨none, 0⟩

/-- `param.begin_load` (src/byoc/params/param.py): if `_loader` is set and
differs from the requested loader the source raises; the `UsageError` it
builds interpolates `self.loader` into its message, but no attribute named
`loader` exists (the field is `_loader`), so evaluating the message raises
`AttributeError` before the `UsageError` is constructed.  Otherwise the
loader reference is stored and the counter incremented. -/
def begin_load (s : PState) (loader : Nat) : Except ErrKind PState :=
  match s.loader with
  | some l =>
      if l ≠ loader then .error .attributeError
      else .ok ⟨some loader, s.begin_count + 1⟩
  | none => .ok ⟨some loader, s.begin_count + 1⟩

/-- `param.end_load`: requires an active loader (else `UsageError` from
`_require_active_loader`), decrements the counter, and clears the loader
reference exactly when the counter reaches zero. -/
def end_load (s : PState) : Except ErrKind PState :=
  match s.loader with
  | none => .error .usage
  | some l =>
      let c := s.begin_count - 1
      .ok ⟨if c = 0 then none else some l, c⟩

/-- C7 (code bug): binding a parameter that is already bound to a different
loader fails, but with `AttributeError`, not the `UsageError` the spec
promises: the raise statement's message evaluates the nonexistent
attribute `self.loader`.  Evaluated here at the failing input: a parameter
bound to loader 1 with counter 1, asked to begin loading for loader 2. -/
theorem C7_begin_load_wrong_error :
    begin_load ⟨some 1, 1⟩ 2 = .error ErrKind.attributeError ∧
    ErrKind.attributeError ≠ ErrKind.usage := by
  exact ⟨rfl, by decide⟩

/-! ## The Loader (src/byoc/load.py)

Attribute keys (`(id(app), id(param))` pairs in the source) are abstracted
as naturals.  The behaviour of one parameter, as the loader observes it
while resolving the corresponding attribute, is a `ParamSpec`: the keys of
the other attributes its getters read (`deps`, in order), whether its pick
raises `NoValueFound` (`fails`), whether it has an `on_load` hook and which
fresh attributes that hook registers via `recursive_load`/`add_attributes`
(`onLoad`), and the value/meta its pick produces.  Storage through the
`Attribute` setters/deleters and the parameter `begin_load`/`end_load`
calls are recorded as events in a trace. -/

/-- Attribute keys: `(id(app), id(param))` abstracted as a natural. -/
abbrev K := Nat

/-- The loader-observable behaviour of one parameter (see section header). -/
structure ParamSpec where
  deps : List K
  fails : Bool
  onLoad : Option (List K)
  val : Nat
  meta : Nat

/-- Assignment of a behaviour to every key. -/
abbrev Env := K → ParamSpec

/-- A raised exception: its class and the chain of attribute keys its
`info` payload would list.  The payload field exists to state properties
about the circular-dependency report the source intends at
src/byoc/load.py:288-296; in fact every error-raising site of load.py
(216-219, 271-274, 280-283, 288-296) evaluates `err.info` on a freshly
constructed `UsageError`, and `UsageError` (src/byoc/errors.py:1-2) is a
plain `Exception` with no `info` attribute, so each of those sites raises
`AttributeError` before reaching its `raise err`, and no error that
actually propagates carries a non-empty payload. -/
structure LErr where
  kind : ErrKind
  payload : List K
deriving DecidableEq

/-- Side effects of the loader on parameters and attribute storage:
`param.begin_load` / `param.end_load` calls, `on_load` hook invocations
(with the value and meta passed to the hook), and the `Attribute`
setter/deleter callbacks. -/
inductive Ev where
  | beginLoad (k : K)
  | endLoad (k : K)
  | hook (k : K) (v m : Nat)
  | setAttr (k : K) (v : Nat)
  | setMeta (k : K) (m : Nat)
  | delAttr (k : K)
  | delMeta (k : K)
deriving DecidableEq

/-- The mutable state of a `Loader` (src/byoc/load.py:120-128):
`_attributes` (registration order of the key-indexed dict), `_locked_keys`,
`_loaded_keys` (a set, kept in load order), `_pending_keys`,
`_mid_load_keys` (a set, kept in registration order), `_is_loading`, plus
the event trace. -/
structure LState where
  attributes : List K
  locked : List K
  loaded : List K
  pending : List K
  midLoad : List K
  isLoading : Bool
  trace : List Ev
deriving DecidableEq

/-- Outcome of a loader operation: the new state, or the raised exception
together with the state at the moment the exception propagates (Python
exceptions do not roll back earlier mutations). -/
abbrev Res := Except (LErr × LState) LState

/-- Append one side-effect event. -/
def emit (s : LState) (e : Ev) : LState := {s with trace := s.trace ++ [e]}

/-- The `for attr in attrs` loop of `Loader.add_attributes`
(src/byoc/load.py:213-226): a key that is already registered makes the
loop fail.  The source builds a `UsageError` for this case, but then
executes `err.info += f"app: ..."` (load.py:217), and the attribute read
`err.info` on a plain `UsageError` raises `AttributeError`, so that is
the exception which actually escapes, with no payload.  Otherwise the key
is registered and appended to the pending list; keys inserted before a
failing one stay inserted, as in the source. -/
def addGo : List K → LState → Res
  | [], s => .ok s
  | k :: ks, s =>
      if k ∈ s.attributes then .error (⟨.attributeError, []⟩, s)
      else addGo ks
        {s with attributes := s.attributes ++ [k], pending := s.pending ++ [k]}

/-- `param.begin_load(self)` calls for a list of keys (the single-loader
run never takes the already-bound-elsewhere branch). -/
def beginNew (ks : List K) (s : LState) : LState :=
  ks.foldl (fun t k => emit t (.beginLoad k)) s

/-- `Loader.add_attributes` (src/byoc/load.py:192-228): run the insertion
loop; then, if a load is active, bind the new parameters and mark the new
keys as mid-load discovered. -/
def addAttributes (ks : List K) (s : LState) : Res :=
  match addGo ks s with
  | .error e => .error e
  | .ok s' =>
      .ok (if s'.isLoading
        then {beginNew ks s' with midLoad := s'.midLoad ++ ks}
        else s')

/-- The `finally: self._locked_keys.pop()` of `load_attribute_value`. -/
def popLock (s : LState) : LState := {s with locked := s.locked.dropLast}

/-- The attributes an `on_load` hook registers (none when the parameter has
no hook). -/
def effSpawns (env : Env) (k : K) : List K := ((env k).onLoad).getD []

/-- The attribute reads a sequence of keys performs against resolver `f`:
each read of key `d` returns the stored value when `d` is loaded and
otherwise re-enters the loader (`param.get_value` →
`Loader.load_attribute_value`, src/byoc/params/param.py:244-260), here
abstracted as `f`. -/
def depsRun (f : K → LState → Res) : List K → LState → Res
  | [], s => .ok s
  | d :: ds, s =>
      match (if d ∈ s.loaded then Except.ok s else f d s) with
      | .error e => .error e
      | .ok s' => depsRun f ds s'

/-- `Loader.load_attribute_value` (src/byoc/load.py:230-310).  The three
early failure branches — unknown key (load.py:270-274), already-loaded key
(load.py:279-283) and a key already on the locked stack (load.py:287-296)
— each construct a `UsageError` and then execute `err.info += ...`; the
attribute read `err.info` on the plain `UsageError` raises
`AttributeError` first, so each branch fails with `AttributeError`
carrying no payload, and in the circular branch in particular the chain of
`value_chain(...)` reprs is never attached.  Otherwise the key is pushed,
`param.load_value` runs (modelled as: resolve the parameter's
dependencies, then either fail the pick or invoke the `on_load` hook,
which registers the hook's attributes), the key is popped — also on every
exception path, per the `try`/`finally` — then value and meta are stored,
the key is marked loaded and dropped from pending.  `fuel` bounds the
recursion depth of the shallow embedding. -/
def loadAttr (env : Env) : Nat → K → LState → Res
  | 0, _, s => .error (⟨.fuel, []⟩, s)
  | fuel + 1, k, s =>
      if k ∈ s.attributes then
        if k ∈ s.loaded then .error (⟨.attributeError, []⟩, s)
        else if k ∈ s.locked then .error (⟨.attributeError, []⟩, s)
        else
          match depsRun (loadAttr env fuel) (env k).deps
              {s with locked := s.locked ++ [k]} with
          | .error (e, s2) => .error (e, popLock s2)
          | .ok s2 =>
              if (env k).fails then .error (⟨.noValue, []⟩, popLock s2)
              else
                match (match (env k).onLoad with
                  | none => Except.ok s2
                  | some ks =>
                      addAttributes ks
                        (emit s2 (.hook k (env k).val (env k).meta))) with
                | .error (e, s3) => .error (e, popLock s3)
                | .ok s3 =>
                    let s4 := emit (emit (popLock s3) (.setAttr k (env k).val))
                      (.setMeta k (env k).meta)
                    .ok
                      {s4 with
                        loaded := s4.loaded ++ [k]
                        pending := s4.pending.erase k}
      else .error (⟨.attributeError, []⟩, s)

/-- Dependency resolution at a given fuel level: reads re-enter
`load_attribute_value` with the remaining fuel. -/
def resolveDeps (env : Env) (fuel : Nat) : List K → LState → Res :=
  depsRun (loadAttr env fuel)

/-- First loop of `Loader._reset_attributes` (src/byoc/load.py:315-318):
for every loaded key, call the attribute's value- and meta-deleters. -/
def resetDel (ks : List K) (s : LState) : LState :=
  match ks with
  | [] => s
  | k :: rest => resetDel rest (emit (emit s (.delAttr k)) (.delMeta k))

/-- Second loop of `Loader._reset_attributes` (src/byoc/load.py:320-322):
every mid-load key is dropped from the attribute registry and its
parameter's `end_load` is called. -/
def resetMid (ks : List K) (s : LState) : LState :=
  match ks with
  | [] => s
  | k :: rest =>
      resetMid rest (emit {s with attributes := s.attributes.erase k} (.endLoad k))

/-- `Loader._reset_attributes` (src/byoc/load.py:312-326): run both loops,
then clear the mid-load and loaded sets and rebuild the pending list from
the remaining registered attributes. -/
def reset (s : LState) : LState :=
  let s2 := resetMid s.midLoad (resetDel s.loaded s)
  {s2 with midLoad := [], loaded := [], pending := s2.attributes}

/-- The `while self._pending_keys:` loop of `Loader.load`
(src/byoc/load.py:183-186): resolve the first pending attribute until none
remain. -/
def finalLoop (env : Env) (fuel : Nat) (s : LState) : Res :=
  match fuel with
  | 0 => .error (⟨.fuel, []⟩, s)
  | fuel' + 1 =>
      match s.pending with
      | [] => .ok s
      | k :: _ =>
          match loadAttr env (fuel' + 1) k s with
          | .error e => .error e
          | .ok s' => finalLoop env fuel' s'

/-- Step 1 of `Loader.load`: `param.begin_load(self)` for every registered
attribute. -/
def beginAll (s : LState) : LState := beginNew s.attributes s

/-- `param.end_load()` calls for a list of keys. -/
def endNew (ks : List K) (s : LState) : LState :=
  ks.foldl (fun t k => emit t (.endLoad k)) s

/-- The `finally:` of `Loader.load`: `param.end_load()` for every
registered attribute, run on success and on exception alike. -/
def endAll (s : LState) : LState := endNew s.attributes s

/-- The config loop and final pass of `Loader.load`
(src/byoc/load.py:176-186): for each config, reset transient state and run
`config.load()` — modelled by the list of attribute keys the config reads —
then reset once more and run the final pending loop.  (The
`loaded_configs` list only influences the values parameters compute, which
the `ParamSpec` abstraction already fixes per key.) -/
def phases (env : Env) (fuel : Nat) (cfgs : List (List K)) (s : LState) : Res :=
  match cfgs with
  | [] => finalLoop env fuel (reset s)
  | c :: cs =>
      match resolveDeps env fuel c (reset s) with
      | .error e => .error e
      | .ok s' => phases env fuel cs s'

/-- `Loader.load` (src/byoc/load.py:132-190): set `_is_loading`, bind every
parameter, run the phases, and unbind every parameter in the `finally`
block whether or not an exception escapes. -/
def load (env : Env) (fuel : Nat) (cfgs : List (List K)) (s : LState) : Res :=
  match phases env fuel cfgs (beginAll {s with isLoading := true}) with
  | .ok s2 => .ok (endAll s2)
  | .error (e, s2) => .error (e, endAll s2)

/-- A loader before construction: no attributes, nothing in flight. -/
def emptyState : LState := ⟨[], [], [], [], [], false, []⟩

/-- `Loader.__init__` (src/byoc/load.py:120-130): start empty and register
the construction-time attributes through `add_attributes`. -/
def initLoader (A0 : List K) : Res := addAttributes A0 emptyState

/-! ### Structural lemmas about the loader operations -/

/-- The state an operation leaves behind, whether it returns or raises. -/
def resState : Res → LState
  | .ok s => s
  | .error (_, s) => s

/-- Relation between a state and any state a (possibly failing) resolution
leaves behind: the locked stack and loading flag are restored, and the
attribute registry, loaded set and trace only grow by appending. -/
def Shape (s t : LState) : Prop :=
  t.locked = s.locked ∧ t.isLoading = s.isLoading ∧
  (∃ a, t.attributes = s.attributes ++ a) ∧
  (∃ l, t.loaded = s.loaded ++ l) ∧
  (∃ tr, t.trace = s.trace ++ tr)

theorem shape_refl (s : LState) : Shape s s :=
  ⟨rfl, rfl, ⟨[], by simp⟩, ⟨[], by simp⟩, ⟨[], by simp⟩⟩

theorem shape_trans {s t u : LState} (h1 : Shape s t) (h2 : Shape t u) :
    Shape s u := by
  obtain ⟨l1, i1, ⟨a1, ha1⟩, ⟨d1, hd1⟩, ⟨t1, ht1⟩⟩ := h1
  obtain ⟨l2, i2, ⟨a2, ha2⟩, ⟨d2, hd2⟩, ⟨t2, ht2⟩⟩ := h2
  exact ⟨l2.trans l1, i2.trans i1, ⟨a1 ++ a2, by simp [ha2, ha1]⟩,
    ⟨d1 ++ d2, by simp [hd2, hd1]⟩, ⟨t1 ++ t2, by simp [ht2, ht1]⟩⟩

theorem addGo_spec : ∀ (ks : List K) (s : LState),
    (∃ a, (∀ x ∈ a, x ∉ s.attributes) ∧
      (resState (addGo ks s)).attributes = s.attributes ++ a ∧
      (resState (addGo ks s)).pending = s.pending ++ a) ∧
    (resState (addGo ks s)).locked = s.locked ∧
    (resState (addGo ks s)).loaded = s.loaded ∧
    (resState (addGo ks s)).midLoad = s.midLoad ∧
    (resState (addGo ks s)).isLoading = s.isLoading ∧
    (resState (addGo ks s)).trace = s.trace := by
  intro ks
  induction ks with
  | nil =>
      intro s
      exact ⟨⟨[], by simp, by simp [resState, addGo], by simp [resState, addGo]⟩,
        rfl, rfl, rfl, rfl, rfl⟩
  | cons k ks ih =>
      intro s
      by_cases hk : k ∈ s.attributes
      · refine ⟨⟨[], by simp, ?_, ?_⟩, ?_, ?_, ?_, ?_⟩ <;>
          simp [addGo, hk, resState]
      · obtain ⟨⟨a, hfresh, hattr, hpend⟩, hlock, hload, hmid, hil, htr⟩ :=
          ih {s with
            attributes := s.attributes ++ [k]
            pending := s.pending ++ [k]}
        have hgo : addGo (k :: ks) s = addGo ks {s with
            attributes := s.attributes ++ [k]
            pending := s.pending ++ [k]} := by
          simp [addGo, hk]
        refine ⟨⟨k :: a, ?_, ?_, ?_⟩, ?_, ?_, ?_, ?_, ?_⟩
        · intro x hx
          rcases List.mem_cons.1 hx with rfl | hx2
          · exact hk
          · intro hmem
            exact hfresh x hx2 (by simp [hmem])
        · rw [hgo, hattr]; simp
        · rw [hgo, hpend]; simp
        · rw [hgo]; exact hlock
        · rw [hgo]; exact hload
        · rw [hgo]; exact hmid
        · rw [hgo]; exact hil
        · rw [hgo]; exact htr

theorem addGo_err : ∀ (ks : List K) (s : LState) {e : LErr} {t : LState},
    addGo ks s = .error (e, t) → e = ⟨.attributeError, []⟩ := by
  intro ks
  induction ks with
  | nil => intro s e t h; cases h
  | cons k ks ih =>
      intro s e t h
      by_cases hk : k ∈ s.attributes
      · simp only [addGo, if_pos hk] at h
        cases h
        rfl
      · simp only [addGo, if_neg hk] at h
        exact ih _ h

theorem addGo_ok : ∀ (ks : List K) (s t : LState), addGo ks s = .ok t →
    t = {s with attributes := s.attributes ++ ks, pending := s.pending ++ ks} ∧
    (∀ x ∈ ks, x ∉ s.attributes) ∧ ks.Nodup := by
  intro ks
  induction ks with
  | nil =>
      intro s t h
      simp only [addGo] at h
      cases h
      exact ⟨by simp, by simp, by simp⟩
  | cons k ks ih =>
      intro s t h
      by_cases hk : k ∈ s.attributes
      · simp only [addGo, if_pos hk] at h
        cases h
      · simp only [addGo, if_neg hk] at h
        obtain ⟨ht, hfresh, hnd⟩ := ih _ _ h
        refine ⟨?_, ?_, ?_⟩
        · rw [ht]; simp
        · intro x hx
          rcases List.mem_cons.1 hx with rfl | hx2
          · exact hk
          · intro hmem
            exact hfresh x hx2 (by simp [hmem])
        · refine List.nodup_cons.2 ⟨?_, hnd⟩
          intro hmem
          exact hfresh k hmem (by simp)

@[simp] theorem beginNew_attributes (ks : List K) (s : LState) :
    (beginNew ks s).attributes = s.attributes := by
  induction ks generalizing s with
  | nil => rfl
  | cons k ks ih => simpa [beginNew, emit] using ih (emit s (.beginLoad k))

@[simp] theorem beginNew_locked (ks : List K) (s : LState) :
    (beginNew ks s).locked = s.locked := by
  induction ks generalizing s with
  | nil => rfl
  | cons k ks ih => simpa [beginNew, emit] using ih (emit s (.beginLoad k))

@[simp] theorem beginNew_loaded (ks : List K) (s : LState) :
    (beginNew ks s).loaded = s.loaded := by
  induction ks generalizing s with
  | nil => rfl
  | cons k ks ih => simpa [beginNew, emit] using ih (emit s (.beginLoad k))

@[simp] theorem beginNew_pending (ks : List K) (s : LState) :
    (beginNew ks s).pending = s.pending := by
  induction ks generalizing s with
  | nil => rfl
  | cons k ks ih => simpa [beginNew, emit] using ih (emit s (.beginLoad k))

@[simp] theorem beginNew_midLoad (ks : List K) (s : LState) :
    (beginNew ks s).midLoad = s.midLoad := by
  induction ks generalizing s with
  | nil => rfl
  | cons k ks ih => simpa [beginNew, emit] using ih (emit s (.beginLoad k))

@[simp] theorem beginNew_isLoading (ks : List K) (s : LState) :
    (beginNew ks s).isLoading = s.isLoading := by
  induction ks generalizing s with
  | nil => rfl
  | cons k ks ih => simpa [beginNew, emit] using ih (emit s (.beginLoad k))

@[simp] theorem beginNew_trace (ks : List K) (s : LState) :
    (beginNew ks s).trace = s.trace ++ ks.map Ev.beginLoad := by
  induction ks generalizing s with
  | nil => simp [beginNew]
  | cons k ks ih =>
      have h := ih (emit s (.beginLoad k))
      simp only [beginNew, List.foldl_cons] at h ⊢
      simpa [emit] using h

/-- Everything `add_attributes` guarantees when it succeeds. -/
theorem addAttributes_ok {ks : List K} {s t : LState}
    (h : addAttributes ks s = .ok t) :
    t.attributes = s.attributes ++ ks ∧ t.pending = s.pending ++ ks ∧
    t.locked = s.locked ∧ t.loaded = s.loaded ∧ t.isLoading = s.isLoading ∧
    (t.midLoad = s.midLoad ∨ t.midLoad = s.midLoad ++ ks) ∧
    (s.isLoading = true → t.midLoad = s.midLoad ++ ks) ∧
    (∃ tb, t.trace = s.trace ++ tb ∧ ∀ e ∈ tb, ∃ j, e = Ev.beginLoad j) ∧
    (∀ x ∈ ks, x ∉ s.attributes) ∧ ks.Nodup := by
  cases hgo : addGo ks s with
  | error p =>
      simp only [addAttributes, hgo] at h
      cases h
  | ok s' =>
      simp only [addAttributes, hgo] at h
      obtain ⟨hs', hfresh, hnd⟩ := addGo_ok ks s s' hgo
      cases h
      subst hs'
      by_cases hl : s.isLoading
      · refine ⟨by simp [hl], by simp [hl], by simp [hl], by simp [hl],
          by simp [hl], ?_, ?_, ?_, hfresh, hnd⟩
        · right; simp [hl]
        · intro _; simp [hl]
        · exact ⟨ks.map Ev.beginLoad, by simp [hl], by simp⟩
      · refine ⟨by simp [hl], by simp [hl], by simp [hl], by simp [hl],
          by simp [hl], ?_, ?_, ?_, hfresh, hnd⟩
        · left; simp [hl]
        · intro hc; exact absurd hc hl
        · exact ⟨[], by simp [hl], by simp⟩

/-- State facts when `add_attributes` fails (duplicate registration; the
failure is the `AttributeError` from the `err.info` read). -/
theorem addAttributes_err {ks : List K} {s t : LState} {e : LErr}
    (h : addAttributes ks s = .error (e, t)) :
    e = ⟨.attributeError, []⟩ ∧
    (∃ a, (∀ x ∈ a, x ∉ s.attributes) ∧ t.attributes = s.attributes ++ a ∧
      t.pending = s.pending ++ a) ∧
    t.locked = s.locked ∧ t.loaded = s.loaded ∧ t.midLoad = s.midLoad ∧
    t.isLoading = s.isLoading ∧ t.trace = s.trace := by
  cases hgo : addGo ks s with
  | error p =>
      obtain ⟨p1, p2⟩ := p
      simp only [addAttributes, hgo] at h
      cases h
      have hsp := addGo_spec ks s
      rw [hgo] at hsp
      exact ⟨addGo_err ks s hgo, hsp.1, hsp.2.1, hsp.2.2.1, hsp.2.2.2.1,
        hsp.2.2.2.2.1, hsp.2.2.2.2.2⟩
  | ok s' =>
      simp only [addAttributes, hgo] at h
      cases h

theorem emit_shape (t : LState) (e : Ev) : Shape t (emit t e) :=
  ⟨rfl, rfl, ⟨[], by simp [emit]⟩, ⟨[], by simp [emit]⟩, ⟨[e], rfl⟩⟩

/-- A `Shape` fact relative to the pushed-lock state yields a `Shape` fact
relative to the original state once the lock is popped. -/
theorem shape_through_lock {s t : LState} {k : K}
    (h : Shape {s with locked := s.locked ++ [k]} t) : Shape s (popLock t) := by
  obtain ⟨hl, hi, ⟨a, ha⟩, ⟨l, hd⟩, ⟨tr, ht⟩⟩ := h
  refine ⟨?_, by simpa [popLock] using hi, ⟨a, by simpa [popLock] using ha⟩,
    ⟨l, by simpa [popLock] using hd⟩, ⟨tr, by simpa [popLock] using ht⟩⟩
  simp only [popLock, hl]
  exact List.dropLast_concat

/-- Storing the value and meta, marking loaded and dropping from pending
preserves `Shape`. -/
theorem shape_store {s t : LState} (k : K) (e1 e2 : Ev) (h : Shape s t) :
    Shape s {emit (emit t e1) e2 with
      loaded := (emit (emit t e1) e2).loaded ++ [k]
      pending := (emit (emit t e1) e2).pending.erase k} := by
  obtain ⟨hl, hi, ⟨a, ha⟩, ⟨l, hd⟩, ⟨tr, ht⟩⟩ := h
  refine ⟨by simp [emit, hl], by simp [emit, hi], ⟨a, by simp [emit, ha]⟩,
    ⟨l ++ [k], by simp [emit, hd]⟩, ⟨tr ++ [e1, e2], by simp [emit, ht]⟩⟩

theorem addAttributes_shape (ks : List K) (t : LState) :
    Shape t (resState (addAttributes ks t)) := by
  cases hadd : addAttributes ks t with
  | ok t' =>
      obtain ⟨ha, hp, hl, hd, hi, _, _, ⟨tb, htb, _⟩, _, _⟩ :=
        addAttributes_ok hadd
      exact ⟨hl, hi, ⟨ks, ha⟩, ⟨[], by simp [resState, hd]⟩, ⟨tb, htb⟩⟩
  | error p =>
      obtain ⟨e, t'⟩ := p
      obtain ⟨_, ⟨a, _, ha, _⟩, hl, hd, _, hi, ht⟩ := addAttributes_err hadd
      exact ⟨hl, hi, ⟨a, ha⟩, ⟨[], by simp [resState, hd]⟩,
        ⟨[], by simp [resState, ht]⟩⟩

theorem depsRun_shape {f : K → LState → Res}
    (hf : ∀ d t, Shape t (resState (f d t))) :
    ∀ (ds : List K) (t : LState), Shape t (resState (depsRun f ds t)) := by
  intro ds
  induction ds with
  | nil => intro t; exact shape_refl t
  | cons d ds ih =>
      intro t
      by_cases hd : d ∈ t.loaded
      · have heq : depsRun f (d :: ds) t = depsRun f ds t := by
          simp [depsRun, hd]
        rw [heq]
        exact ih t
      · cases hres : f d t with
        | error e =>
            have heq : depsRun f (d :: ds) t = .error e := by
              simp [depsRun, hd, hres]
            rw [heq]
            have h1 := hf d t
            rw [hres] at h1
            exact h1
        | ok t1 =>
            have heq : depsRun f (d :: ds) t = depsRun f ds t1 := by
              simp [depsRun, hd, hres]
            rw [heq]
            have h1 := hf d t
            rw [hres] at h1
            exact shape_trans h1 (ih t1)

/-- Monotonicity/restoration facts about `load_attribute_value`: whether the
call returns or raises, the locked stack and loading flag are restored to
their entry values, and the attribute registry, the loaded set and the
trace only ever grow. -/
theorem loadAttr_shape (env : Env) :
    ∀ (fuel : Nat) (k : K) (s : LState),
      Shape s (resState (loadAttr env fuel k s)) := by
  intro fuel
  induction fuel with
  | zero => intro k s; exact shape_refl s
  | succ fuel ih =>
      intro k s
      by_cases h1 : k ∈ s.attributes
      · by_cases h2 : k ∈ s.loaded
        · have heq : loadAttr env (fuel + 1) k s = .error (⟨.attributeError, []⟩, s) := by
            simp [loadAttr, h1, h2]
          rw [heq]; exact shape_refl s
        · by_cases h3 : k ∈ s.locked
          · have heq : loadAttr env (fuel + 1) k s =
                .error (⟨.attributeError, []⟩, s) := by
              simp [loadAttr, h1, h2, h3]
            rw [heq]; exact shape_refl s
          · have hdeps := depsRun_shape ih (env k).deps
              {s with locked := s.locked ++ [k]}
            cases hres : depsRun (loadAttr env fuel) (env k).deps
                {s with locked := s.locked ++ [k]} with
            | error p =>
                obtain ⟨e2, s2⟩ := p
                have heq : loadAttr env (fuel + 1) k s = .error (e2, popLock s2) := by
                  simp [loadAttr, h1, h2, h3, hres]
                rw [heq]
                rw [hres] at hdeps
                exact shape_through_lock hdeps
            | ok s2 =>
                rw [hres] at hdeps
                by_cases h4 : (env k).fails
                · have heq : loadAttr env (fuel + 1) k s =
                      .error (⟨.noValue, []⟩, popLock s2) := by
                    simp [loadAttr, h1, h2, h3, hres, h4]
                  rw [heq]
                  exact shape_through_lock hdeps
                · cases hol : (env k).onLoad with
                  | none =>
                      have heq : loadAttr env (fuel + 1) k s = .ok
                          {emit (emit (popLock s2) (.setAttr k (env k).val))
                              (.setMeta k (env k).meta) with
                            loaded := (emit (emit (popLock s2)
                              (.setAttr k (env k).val))
                              (.setMeta k (env k).meta)).loaded ++ [k]
                            pending := (emit (emit (popLock s2)
                              (.setAttr k (env k).val))
                              (.setMeta k (env k).meta)).pending.erase k} := by
                        simp [loadAttr, h1, h2, h3, hres, h4, hol]
                      rw [heq]
                      exact shape_store k _ _ (shape_through_lock hdeps)
                  | some ks =>
                      have hhook := shape_trans hdeps
                        (emit_shape s2 (.hook k (env k).val (env k).meta))
                      cases hadd : addAttributes ks
                          (emit s2 (.hook k (env k).val (env k).meta)) with
                      | error p =>
                          obtain ⟨e3, s3⟩ := p
                          have heq : loadAttr env (fuel + 1) k s =
                              .error (e3, popLock s3) := by
                            simp [loadAttr, h1, h2, h3, hres, h4, hol, hadd]
                          rw [heq]
                          have h5 := addAttributes_shape ks
                            (emit s2 (.hook k (env k).val (env k).meta))
                          rw [hadd] at h5
                          exact shape_through_lock (shape_trans hhook h5)
                      | ok s3 =>
                          have heq : loadAttr env (fuel + 1) k s = .ok
                              {emit (emit (popLock s3) (.setAttr k (env k).val))
                                  (.setMeta k (env k).meta) with
                                loaded := (emit (emit (popLock s3)
                                  (.setAttr k (env k).val))
                                  (.setMeta k (env k).meta)).loaded ++ [k]
                                pending := (emit (emit (popLock s3)
                                  (.setAttr k (env k).val))
                                  (.setMeta k (env k).meta)).pending.erase k} := by
                            simp [loadAttr, h1, h2, h3, hres, h4, hol, hadd]
                          rw [heq]
                          have h5 := addAttributes_shape ks
                            (emit s2 (.hook k (env k).val (env k).meta))
                          rw [hadd] at h5
                          exact shape_store k _ _
                            (shape_through_lock (shape_trans hhook h5))
      · have heq : loadAttr env (fuel + 1) k s = .error (⟨.attributeError, []⟩, s) := by
          simp [loadAttr, h1]
        rw [heq]; exact shape_refl s

/-- Membership of `j` in the loaded set and the pending list is unchanged
between states `s` and `t`. -/
def Freeze (j : K) (s t : LState) : Prop :=
  (j ∈ t.loaded ↔ j ∈ s.loaded) ∧ (j ∈ t.pending ↔ j ∈ s.pending)

theorem freeze_refl (j : K) (s : LState) : Freeze j s s :=
  ⟨Iff.rfl, Iff.rfl⟩

theorem freeze_trans {j : K} {s t u : LState} (h1 : Freeze j s t)
    (h2 : Freeze j t u) : Freeze j s u :=
  ⟨h2.1.trans h1.1, h2.2.trans h1.2⟩

theorem addAttributes_freeze {j : K} {ks : List K} {t : LState}
    (hj : j ∈ t.attributes) :
    Freeze j t (resState (addAttributes ks t)) := by
  cases hadd : addAttributes ks t with
  | ok t' =>
      obtain ⟨ha, hp, hl, hd, hi, _, _, _, hfresh, _⟩ := addAttributes_ok hadd
      refine ⟨by simp [resState, hd], ?_⟩
      have hjks : j ∉ ks := fun hmem => hfresh j hmem hj
      simp [resState, hp, hjks]
  | error p =>
      obtain ⟨e, t'⟩ := p
      obtain ⟨_, ⟨a, hfresh, ha, hp⟩, hl, hd, _, hi, ht⟩ := addAttributes_err hadd
      refine ⟨by simp [resState, hd], ?_⟩
      have hja : j ∉ a := fun hmem => hfresh j hmem hj
      simp [resState, hp, hja]

theorem depsRun_freeze {j : K} {f : K → LState → Res}
    (hsh : ∀ d t, Shape t (resState (f d t)))
    (hf : ∀ d t, j ∈ t.locked → j ∈ t.attributes →
      Freeze j t (resState (f d t))) :
    ∀ (ds : List K) (t : LState), j ∈ t.locked → j ∈ t.attributes →
      Freeze j t (resState (depsRun f ds t)) := by
  intro ds
  induction ds with
  | nil => intro t _ _; exact freeze_refl j t
  | cons d ds ih =>
      intro t hjl hja
      by_cases hd : d ∈ t.loaded
      · have heq : depsRun f (d :: ds) t = depsRun f ds t := by
          simp [depsRun, hd]
        rw [heq]
        exact ih t hjl hja
      · cases hres : f d t with
        | error e =>
            have heq : depsRun f (d :: ds) t = .error e := by
              simp [depsRun, hd, hres]
            rw [heq]
            have h1 := hf d t hjl hja
            rw [hres] at h1
            exact h1
        | ok t1 =>
            have heq : depsRun f (d :: ds) t = depsRun f ds t1 := by
              simp [depsRun, hd, hres]
            rw [heq]
            have h1 := hf d t hjl hja
            rw [hres] at h1
            have hshape := hsh d t
            rw [hres] at hshape
            obtain ⟨hl1, _, ⟨a1, ha1⟩, _, _⟩ := hshape
            have hl1' : t1.locked = t.locked := hl1
            have ha1' : t1.attributes = t.attributes ++ a1 := ha1
            have hjl1 : j ∈ t1.locked := by rw [hl1']; exact hjl
            have hja1 : j ∈ t1.attributes := by rw [ha1']; simp [hja]
            exact freeze_trans h1 (ih t1 hjl1 hja1)

/-- While an attribute key sits on the locked stack, no resolution changes
whether it is loaded or pending. -/
theorem loadAttr_freeze (env : Env) :
    ∀ (fuel : Nat) (k : K) (s : LState) (j : K), j ∈ s.locked →
      j ∈ s.attributes → Freeze j s (resState (loadAttr env fuel k s)) := by
  intro fuel
  induction fuel with
  | zero => intro k s j _ _; exact freeze_refl j s
  | succ fuel ih =>
      intro k s j hjl hja
      by_cases h1 : k ∈ s.attributes
      · by_cases h2 : k ∈ s.loaded
        · have heq : loadAttr env (fuel + 1) k s = .error (⟨.attributeError, []⟩, s) := by
            simp [loadAttr, h1, h2]
          rw [heq]; exact freeze_refl j s
        · by_cases h3 : k ∈ s.locked
          · have heq : loadAttr env (fuel + 1) k s =
                .error (⟨.attributeError, []⟩, s) := by
              simp [loadAttr, h1, h2, h3]
            rw [heq]; exact freeze_refl j s
          · have hjk : j ≠ k := fun he => h3 (he ▸ hjl)
            have hjl1 : j ∈ ({s with locked := s.locked ++ [k]} : LState).locked := by
              simp [hjl]
            have hdf := depsRun_freeze (j := j)
              (fun d t => loadAttr_shape env fuel d t)
              (fun d t h1' h2' => ih d t j h1' h2') (env k).deps
              {s with locked := s.locked ++ [k]} hjl1 hja
            have hds := depsRun_shape (fun d t => loadAttr_shape env fuel d t)
              (env k).deps {s with locked := s.locked ++ [k]}
            cases hres : depsRun (loadAttr env fuel) (env k).deps
                {s with locked := s.locked ++ [k]} with
            | error p =>
                obtain ⟨e2, s2⟩ := p
                have heq : loadAttr env (fuel + 1) k s =
                    .error (e2, popLock s2) := by
                  simp [loadAttr, h1, h2, h3, hres]
                rw [heq]
                rw [hres] at hdf
                exact hdf
            | ok s2 =>
                rw [hres] at hdf hds
                obtain ⟨hl2, _, ⟨a2, ha2⟩, _, _⟩ := hds
                have ha2' : s2.attributes =
                    ({s with locked := s.locked ++ [k]} : LState).attributes
                      ++ a2 := ha2
                have hja2 : j ∈ s2.attributes := by rw [ha2']; simp [hja]
                have hdf1 : j ∈ s2.loaded ↔ j ∈ s.loaded := hdf.1
                have hdf2 : j ∈ s2.pending ↔ j ∈ s.pending := hdf.2
                by_cases h4 : (env k).fails
                · have heq : loadAttr env (fuel + 1) k s =
                      .error (⟨.noValue, []⟩, popLock s2) := by
                    simp [loadAttr, h1, h2, h3, hres, h4]
                  rw [heq]
                  exact hdf
                · cases hol : (env k).onLoad with
                  | none =>
                      have heq : loadAttr env (fuel + 1) k s = .ok
                          {emit (emit (popLock s2) (.setAttr k (env k).val))
                              (.setMeta k (env k).meta) with
                            loaded := (emit (emit (popLock s2)
                              (.setAttr k (env k).val))
                              (.setMeta k (env k).meta)).loaded ++ [k]
                            pending := (emit (emit (popLock s2)
                              (.setAttr k (env k).val))
                              (.setMeta k (env k).meta)).pending.erase k} := by
                        simp [loadAttr, h1, h2, h3, hres, h4, hol]
                      rw [heq]
                      refine ⟨?_, ?_⟩
                      · simp only [resState, emit, popLock]
                        rw [List.mem_append]
                        simp [hjk, hdf1]
                      · simp only [resState, emit, popLock]
                        rw [List.mem_erase_of_ne hjk]
                        exact hdf2
                  | some ks =>
                      have hja2' : j ∈ (emit s2
                          (.hook k (env k).val (env k).meta)).attributes := by
                        simpa [emit] using hja2
                      have haf := @addAttributes_freeze j ks _ hja2'
                      cases hadd : addAttributes ks
                          (emit s2 (.hook k (env k).val (env k).meta)) with
                      | error p =>
                          obtain ⟨e3, s3⟩ := p
                          have heq : loadAttr env (fuel + 1) k s =
                              .error (e3, popLock s3) := by
                            simp [loadAttr, h1, h2, h3, hres, h4, hol, hadd]
                          rw [heq]
                          rw [hadd] at haf
                          exact freeze_trans hdf haf
                      | ok s3 =>
                          rw [hadd] at haf
                          have haf1 : j ∈ s3.loaded ↔ j ∈ s2.loaded := haf.1
                          have haf2 : j ∈ s3.pending ↔ j ∈ s2.pending := haf.2
                          have hfz1 : j ∈ s3.loaded ↔ j ∈ s.loaded :=
                            haf1.trans hdf1
                          have hfz2 : j ∈ s3.pending ↔ j ∈ s.pending :=
                            haf2.trans hdf2
                          have heq : loadAttr env (fuel + 1) k s = .ok
                              {emit (emit (popLock s3) (.setAttr k (env k).val))
                                  (.setMeta k (env k).meta) with
                                loaded := (emit (emit (popLock s3)
                                  (.setAttr k (env k).val))
                                  (.setMeta k (env k).meta)).loaded ++ [k]
                                pending := (emit (emit (popLock s3)
                                  (.setAttr k (env k).val))
                                  (.setMeta k (env k).meta)).pending.erase k} := by
                            simp [loadAttr, h1, h2, h3, hres, h4, hol, hadd]
                          rw [heq]
                          refine ⟨?_, ?_⟩
                          · simp only [resState, emit, popLock]
                            rw [List.mem_append]
                            simp [hjk, hfz1]
                          · simp only [resState, emit, popLock]
                            rw [List.mem_erase_of_ne hjk]
                            exact hfz2
      · have heq : loadAttr env (fuel + 1) k s = .error (⟨.attributeError, []⟩, s) := by
          simp [loadAttr, h1]
        rw [heq]; exact freeze_refl j s

theorem depsRun_no_usage {f : K → LState → Res}
    (hf : ∀ (d : K) (t : LState) (c : List K) (t' : LState),
      f d t ≠ .error (⟨.usage, c⟩, t')) :
    ∀ (ds : List K) (t : LState) (c : List K) (t' : LState),
      depsRun f ds t ≠ .error (⟨.usage, c⟩, t') := by
  intro ds
  induction ds with
  | nil =>
      intro t c t' h
      simp [depsRun] at h
  | cons d ds ih =>
      intro t c t' h
      by_cases hd : d ∈ t.loaded
      · have heq : depsRun f (d :: ds) t = depsRun f ds t := by
          simp [depsRun, hd]
        rw [heq] at h
        exact ih t c t' h
      · cases hres : f d t with
        | error p =>
            obtain ⟨e2, t2⟩ := p
            have heq : depsRun f (d :: ds) t = .error (e2, t2) := by
              simp [depsRun, hd, hres]
            rw [heq] at h
            cases h
            exact hf d t c t' hres
        | ok t1 =>
            have heq : depsRun f (d :: ds) t = depsRun f ds t1 := by
              simp [depsRun, hd, hres]
            rw [heq] at h
            exact ih t1 c t' h

/-- No `UsageError` ever escapes `load_attribute_value`: every branch of
src/byoc/load.py that constructs one (unknown key, already-loaded key,
circular dependency, and the duplicate check of `add_attributes` reached
through an `on_load` hook) crashes with `AttributeError` while evaluating
`err.info` on it, and the remaining failures are the pick's
`NoValueFound` and the fuel exhaustion of the embedding. -/
theorem loadAttr_no_usage (env : Env) :
    ∀ (fuel : Nat) (k : K) (s : LState) (c : List K) (t' : LState),
      loadAttr env fuel k s ≠ .error (⟨.usage, c⟩, t') := by
  intro fuel
  induction fuel with
  | zero =>
      intro k s c t' h
      simp [loadAttr] at h
  | succ fuel ih =>
      intro k s c t' h
      by_cases h1 : k ∈ s.attributes
      · by_cases h2 : k ∈ s.loaded
        · have heq : loadAttr env (fuel + 1) k s =
              .error (⟨.attributeError, []⟩, s) := by
            simp [loadAttr, h1, h2]
          rw [heq] at h
          cases h
        · by_cases h3 : k ∈ s.locked
          · have heq : loadAttr env (fuel + 1) k s =
                .error (⟨.attributeError, []⟩, s) := by
              simp [loadAttr, h1, h2, h3]
            rw [heq] at h
            cases h
          · cases hres : depsRun (loadAttr env fuel) (env k).deps
                {s with locked := s.locked ++ [k]} with
            | error p =>
                obtain ⟨e2, s2⟩ := p
                have heq : loadAttr env (fuel + 1) k s =
                    .error (e2, popLock s2) := by
                  simp [loadAttr, h1, h2, h3, hres]
                rw [heq] at h
                cases h
                exact depsRun_no_usage ih (env k).deps
                  {s with locked := s.locked ++ [k]} c s2 hres
            | ok s2 =>
                by_cases h4 : (env k).fails
                · have heq : loadAttr env (fuel + 1) k s =
                      .error (⟨.noValue, []⟩, popLock s2) := by
                    simp [loadAttr, h1, h2, h3, hres, h4]
                  rw [heq] at h
                  cases h
                · cases hol : (env k).onLoad with
                  | none =>
                      have heq : loadAttr env (fuel + 1) k s = .ok
                          {emit (emit (popLock s2) (.setAttr k (env k).val))
                              (.setMeta k (env k).meta) with
                            loaded := (emit (emit (popLock s2)
                              (.setAttr k (env k).val))
                              (.setMeta k (env k).meta)).loaded ++ [k]
                            pending := (emit (emit (popLock s2)
                              (.setAttr k (env k).val))
                              (.setMeta k (env k).meta)).pending.erase k} := by
                        simp [loadAttr, h1, h2, h3, hres, h4, hol]
                      rw [heq] at h
                      cases h
                  | some ks =>
                      cases hadd : addAttributes ks
                          (emit s2 (.hook k (env k).val (env k).meta)) with
                      | error p =>
                          obtain ⟨e3, s3⟩ := p
                          have heq : loadAttr env (fuel + 1) k s =
                              .error (e3, popLock s3) := by
                            simp [loadAttr, h1, h2, h3, hres, h4, hol, hadd]
                          rw [heq] at h
                          cases h
                          have he3 := (addAttributes_err hadd).1
                          cases he3
                      | ok s3 =>
                          have heq : loadAttr env (fuel + 1) k s = .ok
                              {emit (emit (popLock s3) (.setAttr k (env k).val))
                                  (.setMeta k (env k).meta) with
                                loaded := (emit (emit (popLock s3)
                                  (.setAttr k (env k).val))
                                  (.setMeta k (env k).meta)).loaded ++ [k]
                                pending := (emit (emit (popLock s3)
                                  (.setAttr k (env k).val))
                                  (.setMeta k (env k).meta)).pending.erase k} := by
                            simp [loadAttr, h1, h2, h3, hres, h4, hol, hadd]
                          rw [heq] at h
                          cases h
      · have heq : loadAttr env (fuel + 1) k s =
            .error (⟨.attributeError, []⟩, s) := by
          simp [loadAttr, h1]
        rw [heq] at h
        cases h

/-- C9: when computing an attribute's value raises, the key pushed for this
resolution is popped before the exception propagates (the locked stack is
restored to its pre-call state), the attribute stays pending and unloaded,
and a later resolution of the same attribute cannot fail with a
`UsageError` whose chain would be the current stack plus this key — the
report the circular-dependency branch intends to raise.  (With the
restored stack the retry cannot re-enter that branch for this key; and
indeed, by `loadAttr_no_usage`, the branch's broken `err.info` attachment
means no `UsageError` escapes `load_attribute_value` at all.) -/
theorem C9_exception_restores_lock (env : Env) (fuel : Nat) (k : K)
    (s : LState) (e : LErr) (s' : LState)
    (herr : loadAttr env fuel k s = .error (e, s')) :
    s'.locked = s.locked ∧ (k ∈ s.pending → k ∈ s'.pending) ∧
    (k ∉ s.loaded → k ∉ s'.loaded) ∧
    (k ∉ s.locked → ∀ (fuel' : Nat) (c : List K) (t : LState),
      loadAttr env fuel' k s' = .error (⟨.usage, c⟩, t) →
      c ≠ s'.locked ++ [k]) := by
  have hshape := loadAttr_shape env fuel k s
  rw [herr] at hshape
  have hlock : s'.locked = s.locked := hshape.1
  have hfz : Freeze k s s' := by
    cases fuel with
    | zero =>
        have h0 := herr
        simp only [loadAttr] at h0
        cases h0
        exact freeze_refl k s
    | succ fuel =>
        by_cases h1 : k ∈ s.attributes
        · by_cases h2 : k ∈ s.loaded
          · have heq : loadAttr env (fuel + 1) k s =
                .error (⟨.attributeError, []⟩, s) := by simp [loadAttr, h1, h2]
            rw [heq] at herr
            cases herr
            exact freeze_refl k s
          · by_cases h3 : k ∈ s.locked
            · have heq : loadAttr env (fuel + 1) k s =
                  .error (⟨.attributeError, []⟩, s) := by
                simp [loadAttr, h1, h2, h3]
              rw [heq] at herr
              cases herr
              exact freeze_refl k s
            · have hk1 : k ∈ ({s with locked := s.locked ++ [k]} :
                  LState).locked := by simp
              have hdf := depsRun_freeze (j := k)
                (fun d t => loadAttr_shape env fuel d t)
                (fun d t a b => loadAttr_freeze env fuel d t k a b)
                (env k).deps {s with locked := s.locked ++ [k]} hk1 h1
              have hds := depsRun_shape (fun d t => loadAttr_shape env fuel d t)
                (env k).deps {s with locked := s.locked ++ [k]}
              cases hres : depsRun (loadAttr env fuel) (env k).deps
                  {s with locked := s.locked ++ [k]} with
              | error p =>
                  obtain ⟨e2, s2⟩ := p
                  have heq : loadAttr env (fuel + 1) k s =
                      .error (e2, popLock s2) := by
                    simp [loadAttr, h1, h2, h3, hres]
                  rw [heq] at herr
                  cases herr
                  rw [hres] at hdf
                  exact ⟨hdf.1, hdf.2⟩
              | ok s2 =>
                  rw [hres] at hdf hds
                  have hdf1 : k ∈ s2.loaded ↔ k ∈ s.loaded := hdf.1
                  have hdf2 : k ∈ s2.pending ↔ k ∈ s.pending := hdf.2
                  obtain ⟨_, _, ⟨a2, ha2⟩, _, _⟩ := hds
                  have ha2' : s2.attributes =
                      ({s with locked := s.locked ++ [k]} : LState).attributes
                        ++ a2 := ha2
                  have hka2 : k ∈ s2.attributes := by rw [ha2']; simp [h1]
                  by_cases h4 : (env k).fails
                  · have heq : loadAttr env (fuel + 1) k s =
                        .error (⟨.noValue, []⟩, popLock s2) := by
                      simp [loadAttr, h1, h2, h3, hres, h4]
                    rw [heq] at herr
                    cases herr
                    exact ⟨hdf1, hdf2⟩
                  · cases hol : (env k).onLoad with
                    | none =>
                        have heq : loadAttr env (fuel + 1) k s = .ok
                            {emit (emit (popLock s2) (.setAttr k (env k).val))
                                (.setMeta k (env k).meta) with
                              loaded := (emit (emit (popLock s2)
                                (.setAttr k (env k).val))
                                (.setMeta k (env k).meta)).loaded ++ [k]
                              pending := (emit (emit (popLock s2)
                                (.setAttr k (env k).val))
                                (.setMeta k (env k).meta)).pending.erase k} := by
                          simp [loadAttr, h1, h2, h3, hres, h4, hol]
                        rw [heq] at herr
                        cases herr
                    | some ks =>
                        have hka2' : k ∈ (emit s2
                            (.hook k (env k).val (env k).meta)).attributes := by
                          simpa [emit] using hka2
                        have haf := @addAttributes_freeze k ks _ hka2'
                        cases hadd : addAttributes ks
                            (emit s2 (.hook k (env k).val (env k).meta)) with
                        | error p =>
                            obtain ⟨e3, s3⟩ := p
                            have heq : loadAttr env (fuel + 1) k s =
                                .error (e3, popLock s3) := by
                              simp [loadAttr, h1, h2, h3, hres, h4, hol, hadd]
                            rw [heq] at herr
                            cases herr
                            rw [hadd] at haf
                            have haf1 : k ∈ s3.loaded ↔ k ∈ s2.loaded := haf.1
                            have haf2 : k ∈ s3.pending ↔ k ∈ s2.pending := haf.2
                            exact ⟨haf1.trans hdf1, haf2.trans hdf2⟩
                        | ok s3 =>
                            have heq : loadAttr env (fuel + 1) k s = .ok
                                {emit (emit (popLock s3) (.setAttr k (env k).val))
                                    (.setMeta k (env k).meta) with
                                  loaded := (emit (emit (popLock s3)
                                    (.setAttr k (env k).val))
                                    (.setMeta k (env k).meta)).loaded ++ [k]
                                  pending := (emit (emit (popLock s3)
                                    (.setAttr k (env k).val))
                                    (.setMeta k (env k).meta)).pending.erase k} := by
                              simp [loadAttr, h1, h2, h3, hres, h4, hol, hadd]
                            rw [heq] at herr
                            cases herr
        · have heq : loadAttr env (fuel + 1) k s = .error (⟨.attributeError, []⟩, s) := by
            simp [loadAttr, h1]
          rw [heq] at herr
          cases herr
          exact freeze_refl k s
  refine ⟨hlock, fun hp => hfz.2.mpr hp, fun hnl hmem => hnl (hfz.1.mp hmem), ?_⟩
  intro _ fuel' c t hcall
  exact absurd hcall (loadAttr_no_usage env fuel' k s' c t)

/-- A two-parameter dependency cycle: key 0 reads key 1 and key 1 reads
key 0; both registered, a load in progress. -/
def envCyc : Env := fun k =>
  if k = 0 then ⟨[1], false, none, 5, 7⟩
  else if k = 1 then ⟨[0], false, none, 6, 8⟩
  else ⟨[], false, none, 0, 0⟩

/-- Loader state with keys 0 and 1 registered and pending, mid-`load()`. -/
def sCyc : LState := ⟨[0, 1], [], [], [0, 1], [], true, []⟩

/-- The exception (if any) an operation raises. -/
def resErr : Res → Option LErr
  | .error (e, _) => some e
  | .ok _ => none

/-- C1 (code bug): resolving either key of the two-parameter dependency
cycle does trip the locked-stack check at src/byoc/load.py:287, but the
exception that escapes is `AttributeError`: the branch constructs the
circular-dependency `UsageError` and then evaluates `err.info` on it
(load.py:289), an attribute the plain-`Exception` `UsageError` does not
have.  So the call fails with neither `CircularDependency` (declared in
src/byoc/errors.py but never raised) nor even `UsageError`, and the
payload that would enumerate the parameters of the cycle is never
attached. -/
theorem C1_circular_raises_attribute_error :
    resErr (loadAttr envCyc 9 0 sCyc) = some ⟨ErrKind.attributeError, []⟩ ∧
    ErrKind.attributeError ≠ ErrKind.circular ∧
    ErrKind.attributeError ≠ ErrKind.usage := by
  refine ⟨by decide, by decide, by decide⟩

theorem addGo_dup : ∀ (ks : List K) (s : LState) (k : K), k ∈ ks →
    k ∈ s.attributes → ∃ t, addGo ks s = .error (⟨.attributeError, []⟩, t) := by
  intro ks
  induction ks with
  | nil => intro s k hk; cases hk
  | cons k0 ks ih =>
      intro s k hk hreg
      by_cases h0 : k0 ∈ s.attributes
      · exact ⟨s, by simp [addGo, h0]⟩
      · rcases List.mem_cons.1 hk with rfl | hk2
        · exact absurd hreg h0
        · obtain ⟨t, ht⟩ := ih {s with
              attributes := s.attributes ++ [k0]
              pending := s.pending ++ [k0]} k hk2 (by simp [hreg])
          exact ⟨t, by simp [addGo, h0, ht]⟩

/-- C8 (code bug): registering an attribute whose (app, parameter) key is
already registered makes `add_attributes` fail, but with `AttributeError`
rather than the `UsageError` the claim states: the duplicate branch
constructs a `UsageError` at src/byoc/load.py:216 and the very next line
evaluates `err.info` on it, an attribute the plain-`Exception`
`UsageError` does not have.  The failure is the same both before `load()`
is called (`isLoading = false`) and while a load is actively running
(`isLoading = true`). -/
theorem C8_duplicate_raises_attribute_error :
    addAttributes [1] ⟨[0, 1], [], [], [0, 1], [], false, []⟩ =
      .error (⟨ErrKind.attributeError, []⟩,
        ⟨[0, 1], [], [], [0, 1], [], false, []⟩) ∧
    addAttributes [1] ⟨[0, 1], [], [], [0, 1], [], true, []⟩ =
      .error (⟨ErrKind.attributeError, []⟩,
        ⟨[0, 1], [], [], [0, 1], [], true, []⟩) ∧
    ErrKind.attributeError ≠ ErrKind.usage := by
  refine ⟨rfl, rfl, by decide⟩

/-- A single registered parameter whose pick raises `NoValueFound`. -/
def envFail : Env := fun k =>
  if k = 0 then ⟨[], true, none, 0, 0⟩ else ⟨[], false, none, 0, 0⟩

/-- Loader state with only key 0 registered and pending, mid-`load()`. -/
def sFail : LState := ⟨[0], [], [], [0], [], true, []⟩

theorem C9_witness :
    sFail.locked = sFail.locked ∧ (0 ∈ sFail.pending → 0 ∈ sFail.pending) ∧
    (0 ∉ sFail.loaded → 0 ∉ sFail.loaded) ∧
    (0 ∉ sFail.locked → ∀ (fuel' : Nat) (c : List K) (t : LState),
      loadAttr envFail fuel' 0 sFail = .error (⟨.usage, c⟩, t) →
      c ≠ sFail.locked ++ [0]) :=
  C9_exception_restores_lock envFail 3 0 sFail ⟨.noValue, []⟩ sFail rfl

/-- C2 as amended: on a successful resolution of a parameter that has an
`on_load` hook, the hook fires after the value and meta are computed but
before they are stored: the trace shows the hook event — with exactly the
value and meta that are subsequently stored — followed (after only the
`begin_load` events of any attributes the hook registers) by the
`set_attr` and `set_meta` callbacks. -/
theorem C2_hook_before_store (env : Env) (fuel : Nat) (k : K)
    (s s' : LState) (ks : List K) (hol : (env k).onLoad = some ks)
    (hok : loadAttr env fuel k s = .ok s') :
    ∃ t1 t2, s'.trace = s.trace ++ t1 ++ [Ev.hook k (env k).val (env k).meta]
        ++ t2 ++ [Ev.setAttr k (env k).val, Ev.setMeta k (env k).meta] ∧
      (∀ e ∈ t2, ∃ j, e = Ev.beginLoad j) := by
  cases fuel with
  | zero => simp [loadAttr] at hok
  | succ fuel =>
      by_cases h1 : k ∈ s.attributes
      · by_cases h2 : k ∈ s.loaded
        · have heq : loadAttr env (fuel + 1) k s = .error (⟨.attributeError, []⟩, s) := by
            simp [loadAttr, h1, h2]
          rw [heq] at hok
          cases hok
        · by_cases h3 : k ∈ s.locked
          · have heq : loadAttr env (fuel + 1) k s =
                .error (⟨.attributeError, []⟩, s) := by
              simp [loadAttr, h1, h2, h3]
            rw [heq] at hok
            cases hok
          · cases hres : depsRun (loadAttr env fuel) (env k).deps
                {s with locked := s.locked ++ [k]} with
            | error p =>
                obtain ⟨e2, s2⟩ := p
                have heq : loadAttr env (fuel + 1) k s =
                    .error (e2, popLock s2) := by
                  simp [loadAttr, h1, h2, h3, hres]
                rw [heq] at hok
                cases hok
            | ok s2 =>
                have hds := depsRun_shape
                  (fun d t => loadAttr_shape env fuel d t)
                  (env k).deps {s with locked := s.locked ++ [k]}
                rw [hres] at hds
                obtain ⟨_, _, _, _, ⟨tr2, htr2⟩⟩ := hds
                have htr2' : s2.trace = s.trace ++ tr2 := htr2
                by_cases h4 : (env k).fails
                · have heq : loadAttr env (fuel + 1) k s =
                      .error (⟨.noValue, []⟩, popLock s2) := by
                    simp [loadAttr, h1, h2, h3, hres, h4]
                  rw [heq] at hok
                  cases hok
                · cases hadd : addAttributes ks
                      (emit s2 (.hook k (env k).val (env k).meta)) with
                  | error p =>
                      obtain ⟨e3, s3⟩ := p
                      have heq : loadAttr env (fuel + 1) k s =
                          .error (e3, popLock s3) := by
                        simp [loadAttr, h1, h2, h3, hres, h4, hol, hadd]
                      rw [heq] at hok
                      cases hok
                  | ok s3 =>
                      have heq : loadAttr env (fuel + 1) k s = .ok
                          {emit (emit (popLock s3) (.setAttr k (env k).val))
                              (.setMeta k (env k).meta) with
                            loaded := (emit (emit (popLock s3)
                              (.setAttr k (env k).val))
                              (.setMeta k (env k).meta)).loaded ++ [k]
                            pending := (emit (emit (popLock s3)
                              (.setAttr k (env k).val))
                              (.setMeta k (env k).meta)).pending.erase k} := by
                        simp [loadAttr, h1, h2, h3, hres, h4, hol, hadd]
                      rw [heq] at hok
                      cases hok
                      obtain ⟨_, _, _, _, _, _, _, ⟨tb, htb, htb2⟩, _, _⟩ :=
                        addAttributes_ok hadd
                      have htb' : s3.trace = s2.trace ++
                          [Ev.hook k (env k).val (env k).meta] ++ tb := by
                        simpa [emit] using htb
                      refine ⟨tr2, tb, ?_, htb2⟩
                      simp [emit, popLock, htb', htr2']
      · have heq : loadAttr env (fuel + 1) k s = .error (⟨.attributeError, []⟩, s) := by
          simp [loadAttr, h1]
        rw [heq] at hok
        cases hok

/-- A single registered parameter with an `on_load` hook that registers
nothing; pick value 5, meta 7. -/
def envHook : Env := fun k =>
  if k = 0 then ⟨[], false, some [], 5, 7⟩ else ⟨[], false, none, 0, 0⟩

/-- Loader state with only key 0 registered and pending, mid-`load()`. -/
def sHook : LState := ⟨[0], [], [], [0], [], true, []⟩

/-- The state after resolving key 0 under `envHook`. -/
def hookRunState : LState := resState (loadAttr envHook 3 0 sHook)

/-- The event trace of that resolution. -/
def hookTrace : List Ev := hookRunState.trace

/-- C2 counterexample: resolving a parameter with an `on_load` hook emits
the hook invocation *before* the `set_attr`/`set_meta` stores — the trace
begins with the hook event — so the claim that the hook is invoked only
after the value and provenance have been stored fails on this run. -/
theorem C2_counterexample :
    hookTrace = [Ev.hook 0 5 7, Ev.setAttr 0 5, Ev.setMeta 0 7] ∧
    ¬ (∀ (pre post : List Ev), hookTrace = pre ++ Ev.hook 0 5 7 :: post →
        ∃ v, Ev.setAttr 0 v ∈ pre) := by
  refine ⟨by decide, ?_⟩
  intro h
  obtain ⟨v, hv⟩ := h [] [Ev.setAttr 0 5, Ev.setMeta 0 7] (by decide)
  simp at hv

theorem C2_witness :
    ∃ t1 t2, hookRunState.trace = sHook.trace ++ t1 ++
        [Ev.hook 0 (envHook 0).val (envHook 0).meta] ++ t2 ++
        [Ev.setAttr 0 (envHook 0).val, Ev.setMeta 0 (envHook 0).meta] ∧
      (∀ e ∈ t2, ∃ j, e = Ev.beginLoad j) :=
  C2_hook_before_store envHook 3 0 sHook hookRunState [] rfl rfl

/-! ### Lemmas about `_reset_attributes` -/

@[simp] theorem resetDel_attributes (ks : List K) (s : LState) :
    (resetDel ks s).attributes = s.attributes := by
  induction ks generalizing s with
  | nil => rfl
  | cons k ks ih => simpa [resetDel, emit] using ih _

@[simp] theorem resetDel_locked (ks : List K) (s : LState) :
    (resetDel ks s).locked = s.locked := by
  induction ks generalizing s with
  | nil => rfl
  | cons k ks ih => simpa [resetDel, emit] using ih _

@[simp] theorem resetDel_loaded (ks : List K) (s : LState) :
    (resetDel ks s).loaded = s.loaded := by
  induction ks generalizing s with
  | nil => rfl
  | cons k ks ih => simpa [resetDel, emit] using ih _

@[simp] theorem resetDel_pending (ks : List K) (s : LState) :
    (resetDel ks s).pending = s.pending := by
  induction ks generalizing s with
  | nil => rfl
  | cons k ks ih => simpa [resetDel, emit] using ih _

@[simp] theorem resetDel_midLoad (ks : List K) (s : LState) :
    (resetDel ks s).midLoad = s.midLoad := by
  induction ks generalizing s with
  | nil => rfl
  | cons k ks ih => simpa [resetDel, emit] using ih _

@[simp] theorem resetDel_isLoading (ks : List K) (s : LState) :
    (resetDel ks s).isLoading = s.isLoading := by
  induction ks generalizing s with
  | nil => rfl
  | cons k ks ih => simpa [resetDel, emit] using ih _

@[simp] theorem resetDel_trace (ks : List K) (s : LState) :
    (resetDel ks s).trace =
      s.trace ++ ks.flatMap (fun k => [Ev.delAttr k, Ev.delMeta k]) := by
  induction ks generalizing s with
  | nil => simp [resetDel]
  | cons k ks ih =>
      have h := ih (emit (emit s (.delAttr k)) (.delMeta k))
      simp only [resetDel] at h ⊢
      simpa [emit] using h

@[simp] theorem resetMid_locked (ks : List K) (s : LState) :
    (resetMid ks s).locked = s.locked := by
  induction ks generalizing s with
  | nil => rfl
  | cons k ks ih => simpa [resetMid, emit] using ih _

@[simp] theorem resetMid_loaded (ks : List K) (s : LState) :
    (resetMid ks s).loaded = s.loaded := by
  induction ks generalizing s with
  | nil => rfl
  | cons k ks ih => simpa [resetMid, emit] using ih _

@[simp] theorem resetMid_pending (ks : List K) (s : LState) :
    (resetMid ks s).pending = s.pending := by
  induction ks generalizing s with
  | nil => rfl
  | cons k ks ih => simpa [resetMid, emit] using ih _

@[simp] theorem resetMid_midLoad (ks : List K) (s : LState) :
    (resetMid ks s).midLoad = s.midLoad := by
  induction ks generalizing s with
  | nil => rfl
  | cons k ks ih => simpa [resetMid, emit] using ih _

@[simp] theorem resetMid_isLoading (ks : List K) (s : LState) :
    (resetMid ks s).isLoading = s.isLoading := by
  induction ks generalizing s with
  | nil => rfl
  | cons k ks ih => simpa [resetMid, emit] using ih _

@[simp] theorem resetMid_attributes (ks : List K) (s : LState) :
    (resetMid ks s).attributes = ks.foldl List.erase s.attributes := by
  induction ks generalizing s with
  | nil => rfl
  | cons k ks ih =>
      simpa [resetMid, emit] using
        ih (emit {s with attributes := s.attributes.erase k} (.endLoad k))

@[simp] theorem resetMid_trace (ks : List K) (s : LState) :
    (resetMid ks s).trace = s.trace ++ ks.map Ev.endLoad := by
  induction ks generalizing s with
  | nil => simp [resetMid]
  | cons k ks ih =>
      have h := ih (emit {s with attributes := s.attributes.erase k}
        (.endLoad k))
      simp only [resetMid] at h ⊢
      simpa [emit] using h

theorem not_mem_foldl_erase_mono {k : K} :
    ∀ (M l : List K), k ∉ l → k ∉ M.foldl List.erase l := by
  intro M
  induction M with
  | nil => intro l h; exact h
  | cons m M ih =>
      intro l h
      exact ih (l.erase m) (fun hm => h (List.mem_of_mem_erase hm))

theorem mem_foldl_erase_of_not_mem {k : K} :
    ∀ (M l : List K), k ∈ l → k ∉ M → k ∈ M.foldl List.erase l := by
  intro M
  induction M with
  | nil => intro l h _; exact h
  | cons m M ih =>
      intro l hl hM
      have hkm : k ≠ m := fun he => hM (he ▸ List.mem_cons_self m M)
      exact ih (l.erase m) ((List.mem_erase_of_ne hkm).2 hl)
        (fun hm => hM (List.mem_cons_of_mem m hm))

theorem not_mem_foldl_erase {k : K} :
    ∀ (M l : List K), l.Nodup → k ∈ M → k ∉ M.foldl List.erase l := by
  intro M
  induction M with
  | nil => intro l _ h; cases h
  | cons m M ih =>
      intro l hnd hk
      by_cases hkm : k = m
      · subst hkm
        by_cases hM : k ∈ M
        · exact ih (l.erase k) (hnd.erase k) hM
        · exact not_mem_foldl_erase_mono M (l.erase k)
            (fun hmem => (hnd.mem_erase_iff.1 hmem).1 rfl)
      · rcases List.mem_cons.1 hk with rfl | hk2
        · exact absurd rfl hkm
        · exact ih (l.erase m) (hnd.erase m) hk2

theorem nodup_foldl_erase : ∀ (M l : List K), l.Nodup →
    (M.foldl List.erase l).Nodup := by
  intro M
  induction M with
  | nil => intro l h; exact h
  | cons m M ih => intro l h; exact ih (l.erase m) (h.erase m)

/-- C4 as amended: a transient-state reset invokes the value- and
provenance-deleters of every loaded attribute and returns it to pending
*unless* it was discovered mid-load, in which case it is instead removed
from the loader entirely; every mid-load attribute is removed and its
parameter's `end_load` is invoked; attributes present at construction (the
ones not marked mid-load) remain registered; afterwards nothing is loaded
or marked mid-load, and the pending list is exactly the remaining
registry. -/
theorem C4_reset_behaviour (s : LState) (hnd : s.attributes.Nodup)
    (hsub : ∀ x ∈ s.loaded, x ∈ s.attributes) :
    (∀ k ∈ s.loaded, Ev.delAttr k ∈ (reset s).trace ∧
      Ev.delMeta k ∈ (reset s).trace ∧
      (k ∉ s.midLoad → k ∈ (reset s).pending)) ∧
    (∀ k ∈ s.midLoad, k ∉ (reset s).attributes ∧
      Ev.endLoad k ∈ (reset s).trace) ∧
    (∀ k ∈ s.attributes, k ∉ s.midLoad → k ∈ (reset s).attributes) ∧
    (reset s).loaded = [] ∧ (reset s).midLoad = [] ∧
    (reset s).pending = (reset s).attributes := by
  have htr : (reset s).trace = s.trace ++
      (s.loaded.flatMap (fun k => [Ev.delAttr k, Ev.delMeta k]) ++
        s.midLoad.map Ev.endLoad) := by
    simp [reset]
  refine ⟨?_, ?_, ?_, by simp [reset], by simp [reset], by simp [reset]⟩
  · intro k hk
    refine ⟨?_, ?_, ?_⟩
    · rw [htr]
      refine List.mem_append.2 (Or.inr ?_)
      refine List.mem_append.2 (Or.inl ?_)
      exact List.mem_flatMap.2 ⟨k, hk, by simp⟩
    · rw [htr]
      refine List.mem_append.2 (Or.inr ?_)
      refine List.mem_append.2 (Or.inl ?_)
      exact List.mem_flatMap.2 ⟨k, hk, by simp⟩
    · intro hnm
      simp only [reset]
      simp only [resetMid_attributes, resetDel_attributes]
      exact mem_foldl_erase_of_not_mem _ _ (hsub k hk) hnm
  · intro k hk
    constructor
    · simp only [reset, resetMid_attributes, resetDel_attributes]
      exact not_mem_foldl_erase _ _ hnd hk
    · rw [htr]
      refine List.mem_append.2 (Or.inr ?_)
      refine List.mem_append.2 (Or.inr ?_)
      exact List.mem_map.2 ⟨k, hk, rfl⟩
  · intro k hk hnm
    simp only [reset, resetMid_attributes, resetDel_attributes]
    exact mem_foldl_erase_of_not_mem _ _ hk hnm

/-- Parameters with no dependencies, no hook, no failures. -/
def envPlain : Env := fun _ => ⟨[], false, none, 0, 0⟩

/-- A loader state reached mid-`load()`: key 0 was registered at
construction; key 1 was registered by `add_attributes` during the load
(hence mid-load discovered) and then resolved, so it is loaded. -/
def sMid : LState :=
  resState (loadAttr envPlain 5 1
    (resState (addAttributes [1] ⟨[0], [], [], [0], [], true, []⟩)))

/-- C4 counterexample: at `sMid`, key 1 is marked loaded, yet after the
transient-state reset it is *not* returned to pending — it is forgotten
entirely, because it was discovered mid-load.  The claim that every loaded
attribute returns to pending therefore fails at this state. -/
theorem C4_counterexample :
    1 ∈ sMid.loaded ∧ 1 ∈ sMid.midLoad ∧ 1 ∉ (reset sMid).pending ∧
    1 ∉ (reset sMid).attributes := by
  refine ⟨by decide, by decide, by decide, by decide⟩

theorem C4_witness :
    (∀ k ∈ sMid.loaded, Ev.delAttr k ∈ (reset sMid).trace ∧
      Ev.delMeta k ∈ (reset sMid).trace ∧
      (k ∉ sMid.midLoad → k ∈ (reset sMid).pending)) ∧
    (∀ k ∈ sMid.midLoad, k ∉ (reset sMid).attributes ∧
      Ev.endLoad k ∈ (reset sMid).trace) ∧
    (∀ k ∈ sMid.attributes, k ∉ sMid.midLoad → k ∈ (reset sMid).attributes) ∧
    (reset sMid).loaded = [] ∧ (reset sMid).midLoad = [] ∧
    (reset sMid).pending = (reset sMid).attributes :=
  C4_reset_behaviour sMid (by decide) (by decide)

/-! ### Termination of `load()` on acyclic dependency graphs (C3)

`Inv` is the loader's internal well-formedness invariant, relative to the
construction-time attributes `A0` and a finite key universe `U`.  `EnvOK`
formalises the claim's hypotheses: the parameters' dependency graph is
acyclic (witnessed by a rank function decreasing along dependencies),
dependencies are construction-registered keys, picks do not fail, and the
attributes registered by `on_load` hooks are fresh, duplicate-free and
drawn from the finite universe. -/

structure Inv (env : Env) (A0 U : List K) (s : LState) : Prop where
  nodupA : s.attributes.Nodup
  nodupL : s.loaded.Nodup
  loadedSub : ∀ x ∈ s.loaded, x ∈ s.attributes
  attrsEq : s.attributes = A0 ++ s.loaded.flatMap (effSpawns env)
  midEq : s.midLoad = s.loaded.flatMap (effSpawns env)
  pendEq : s.pending = s.attributes.filter (fun x => decide (x ∉ s.loaded))
  attrsU : ∀ x ∈ s.attributes, x ∈ U
  loading : s.isLoading = true

structure EnvOK (env : Env) (A0 U : List K) (rank : K → Nat) : Prop where
  nodupA0 : A0.Nodup
  a0U : ∀ k ∈ A0, k ∈ U
  depsA0 : ∀ k ∈ U, ∀ d ∈ (env k).deps, d ∈ A0
  depsRank : ∀ k ∈ U, ∀ d ∈ (env k).deps, rank d < rank k
  noFail : ∀ k ∈ U, (env k).fails = false
  spawnsU : ∀ k ∈ U, ∀ j ∈ effSpawns env k, j ∈ U
  spawnsNodup : ∀ k ∈ U, (effSpawns env k).Nodup
  spawnsFresh : ∀ k ∈ U, ∀ j ∈ effSpawns env k, j ∉ A0
  spawnsDisj : ∀ k ∈ U, ∀ k' ∈ U, k ≠ k' → ∀ j ∈ effSpawns env k,
    j ∉ effSpawns env k'

theorem erase_filter (k : K) (L : List K) :
    ∀ (l : List K), l.Nodup →
      (l.filter (fun x => decide (x ∉ L))).erase k =
        l.filter (fun x => decide (x ∉ L ++ [k])) := by
  intro l
  induction l with
  | nil => intro _; rfl
  | cons a l ih =>
      intro hnd
      obtain ⟨hal, hnd'⟩ := List.nodup_cons.1 hnd
      by_cases haL : a ∈ L
      · have h1 : (decide (a ∉ L)) = false := by simp [haL]
        have h2 : (decide (a ∉ L ++ [k])) = false := by simp [haL]
        simp only [List.filter_cons, h1, h2, if_false]
        exact ih hnd'
      · by_cases hak : a = k
        · subst hak
          have h1 : (decide (a ∉ L)) = true := by simp [haL]
          have h2 : (decide (a ∉ L ++ [a])) = false := by simp
          simp only [List.filter_cons, h1, h2, if_true, if_false]
          rw [List.erase_cons_head]
          apply List.filter_congr
          intro x hx
          have hxa : x ≠ a := fun he => hal (he ▸ hx)
          simp [hxa]
        · have h1 : (decide (a ∉ L)) = true := by simp [haL]
          have h2 : (decide (a ∉ L ++ [k])) = true := by simp [haL, hak]
          simp only [List.filter_cons, h1, h2, if_true]
          rw [List.erase_cons_tail (by simp [hak])]
          rw [ih hnd']

theorem addGo_fresh : ∀ (ks : List K) (s : LState), ks.Nodup →
    (∀ x ∈ ks, x ∉ s.attributes) →
    addGo ks s = .ok {s with
      attributes := s.attributes ++ ks
      pending := s.pending ++ ks} := by
  intro ks
  induction ks with
  | nil => intro s _ _; simp [addGo]
  | cons k0 ks ih =>
      intro s hnd hfresh
      have h0 : k0 ∉ s.attributes := hfresh k0 (by simp)
      have heq : addGo (k0 :: ks) s = addGo ks {s with
          attributes := s.attributes ++ [k0]
          pending := s.pending ++ [k0]} := by
        simp [addGo, h0]
      rw [heq, ih _ (List.nodup_cons.1 hnd).2 ?_]
      · simp
      · intro x hx
        have hx1 : x ∉ s.attributes := hfresh x (List.mem_cons_of_mem k0 hx)
        have hx2 : x ≠ k0 := fun he => (List.nodup_cons.1 hnd).1 (he ▸ hx)
        simp [hx1, hx2]

theorem depsRun_ok {env : Env} {A0 U : List K} {rank : K → Nat} {B : Nat}
    {f : K → LState → Res}
    (hf : ∀ k s, Inv env A0 U s → k ∈ s.attributes → k ∉ s.loaded →
      (∀ j ∈ s.locked, rank k < rank j) → rank k < B →
      ∃ s', f k s = .ok s' ∧ Inv env A0 U s' ∧ s'.locked = s.locked ∧
        (∀ x ∈ s.attributes, x ∈ s'.attributes) ∧
        (∀ x ∈ s.loaded, x ∈ s'.loaded) ∧ k ∈ s'.loaded) :
    ∀ (ds : List K) (s : LState), Inv env A0 U s →
      (∀ d ∈ ds, d ∈ A0) → (∀ d ∈ ds, rank d < B) →
      (∀ d ∈ ds, ∀ j ∈ s.locked, rank d < rank j) →
      ∃ s', depsRun f ds s = .ok s' ∧ Inv env A0 U s' ∧ s'.locked = s.locked ∧
        (∀ x ∈ s.attributes, x ∈ s'.attributes) ∧
        (∀ x ∈ s.loaded, x ∈ s'.loaded) ∧ (∀ d ∈ ds, d ∈ s'.loaded) := by
  intro ds
  induction ds with
  | nil =>
      intro s hInv _ _ _
      exact ⟨s, rfl, hInv, rfl, fun x hx => hx, fun x hx => hx, by simp⟩
  | cons d ds ih =>
      intro s hInv hA0 hB hLock
      by_cases hd : d ∈ s.loaded
      · obtain ⟨s', h1, h2, h3, h4, h5, h6⟩ := ih s hInv
          (fun d' hd' => hA0 d' (List.mem_cons_of_mem d hd'))
          (fun d' hd' => hB d' (List.mem_cons_of_mem d hd'))
          (fun d' hd' => hLock d' (List.mem_cons_of_mem d hd'))
        have heq : depsRun f (d :: ds) s = depsRun f ds s := by
          simp [depsRun, hd]
        refine ⟨s', by rw [heq]; exact h1, h2, h3, h4, h5, ?_⟩
        intro d' hd'
        rcases List.mem_cons.1 hd' with rfl | hd2
        · exact h5 d' hd
        · exact h6 d' hd2
      · have hdA : d ∈ s.attributes := by
          rw [hInv.attrsEq]
          exact List.mem_append_left _ (hA0 d (by simp))
        obtain ⟨s1, hf1, hInv1, hl1, ha1, hld1, hdl1⟩ :=
          hf d s hInv hdA hd (hLock d (by simp)) (hB d (by simp))
        obtain ⟨s', h1, h2, h3, h4, h5, h6⟩ := ih s1 hInv1
          (fun d' hd' => hA0 d' (List.mem_cons_of_mem d hd'))
          (fun d' hd' => hB d' (List.mem_cons_of_mem d hd'))
          (fun d' hd' j hj => hLock d' (List.mem_cons_of_mem d hd') j
            (by rw [← hl1]; exact hj))
        have heq : depsRun f (d :: ds) s = depsRun f ds s1 := by
          simp [depsRun, hd, hf1]
        refine ⟨s', by rw [heq]; exact h1, h2, h3.trans hl1,
          fun x hx => h4 x (ha1 x hx), fun x hx => h5 x (hld1 x hx), ?_⟩
        intro d' hd'
        rcases List.mem_cons.1 hd' with rfl | hd2
        · exact h5 d' hdl1
        · exact h6 d' hd2

/-- Freshness of hook-registered attributes relative to the current
registry: a key cannot already be construction-registered, nor spawned by
an already-loaded key. -/
theorem spawns_fresh {env : Env} {A0 U : List K} {rank : K → Nat}
    (he : EnvOK env A0 U rank) {s2 : LState} {k : K}
    (hInv2 : Inv env A0 U s2) (hkL : k ∉ s2.loaded) (hkU : k ∈ U) :
    ∀ j ∈ effSpawns env k, j ∉ s2.attributes := by
  intro j hj hmem
  rw [hInv2.attrsEq] at hmem
  rcases List.mem_append.1 hmem with hmem | hmem
  · exact he.spawnsFresh k hkU j hj hmem
  · obtain ⟨k2, hk2, hjk2⟩ := List.mem_flatMap.1 hmem
    have hk2U : k2 ∈ U := hInv2.attrsU k2 (hInv2.loadedSub k2 hk2)
    have hne : k ≠ k2 := fun he' => hkL (he' ▸ hk2)
    exact he.spawnsDisj k hkU k2 hk2U hne j hj hjk2

/-- Re-establishing the loader invariant after one successful resolution:
the final state has the hook's attributes appended to the registry and the
pending list, the resolved key appended to the loaded set and erased from
pending. -/
theorem loadAttr_finish {env : Env} {A0 U : List K} {rank : K → Nat}
    (he : EnvOK env A0 U rank) {s2 sF : LState} {k : K}
    (hInv2 : Inv env A0 U s2) (hkA : k ∈ s2.attributes) (hkL : k ∉ s2.loaded)
    (hFa : sF.attributes = s2.attributes ++ effSpawns env k)
    (hFp : sF.pending = (s2.pending ++ effSpawns env k).erase k)
    (hFm : sF.midLoad = s2.midLoad ++ effSpawns env k)
    (hFl : sF.loaded = s2.loaded ++ [k])
    (hFi : sF.isLoading = s2.isLoading) :
    Inv env A0 U sF := by
  have hkU : k ∈ U := hInv2.attrsU k hkA
  have hfresh := spawns_fresh he hInv2 hkL hkU
  have hksnd := he.spawnsNodup k hkU
  constructor
  · rw [hFa]
    exact hInv2.nodupA.append hksnd (fun a ha haa => hfresh a haa ha)
  · rw [hFl]
    refine hInv2.nodupL.append (by simp) ?_
    intro a ha haa
    rcases List.mem_cons.1 haa with rfl | h
    · exact hkL ha
    · cases h
  · rw [hFl, hFa]
    intro x hx
    rcases List.mem_append.1 hx with hx | hx
    · exact List.mem_append_left _ (hInv2.loadedSub x hx)
    · rcases List.mem_cons.1 hx with rfl | h
      · exact List.mem_append_left _ hkA
      · cases h
  · rw [hFa, hFl, hInv2.attrsEq]
    simp [List.flatMap_append]
  · rw [hFm, hFl, hInv2.midEq]
    simp [List.flatMap_append]
  · rw [hFp, hFl, hFa, hInv2.pendEq]
    have hkfilter : k ∈ s2.attributes.filter
        (fun x => decide (x ∉ s2.loaded)) := by
      rw [List.mem_filter]
      exact ⟨hkA, by simp [hkL]⟩
    rw [List.erase_append_left _ hkfilter]
    rw [erase_filter k s2.loaded s2.attributes hInv2.nodupA]
    rw [List.filter_append]
    congr 1
    have : ∀ j ∈ effSpawns env k,
        (fun x => decide (x ∉ s2.loaded ++ [k])) j = true := by
      intro j hj
      have hj1 : j ∉ s2.loaded := fun hm =>
        hfresh j hj (hInv2.loadedSub j hm)
      have hj2 : j ≠ k := fun he' => hfresh j hj (he' ▸ hkA)
      simp [hj1, hj2]
    exact (List.filter_eq_self.2 this).symm
  · rw [hFa]
    intro x hx
    rcases List.mem_append.1 hx with hx | hx
    · exact hInv2.attrsU x hx
    · exact he.spawnsU k hkU x hx
  · rw [hFi]
    exact hInv2.loading

/-- Main success lemma: under `EnvOK`, a well-formed loader state resolves
any registered, not-yet-loaded key whose rank is below the fuel, restoring
the locked stack, growing the registry and the loaded set, and loading the
key. -/
theorem loadAttr_ok {env : Env} {A0 U : List K} {rank : K → Nat}
    (he : EnvOK env A0 U rank) :
    ∀ (fuel : Nat) (k : K) (s : LState), Inv env A0 U s →
      k ∈ s.attributes → k ∉ s.loaded →
      (∀ j ∈ s.locked, rank k < rank j) → rank k < fuel →
      ∃ s', loadAttr env fuel k s = .ok s' ∧ Inv env A0 U s' ∧
        s'.locked = s.locked ∧ (∀ x ∈ s.attributes, x ∈ s'.attributes) ∧
        (∀ x ∈ s.loaded, x ∈ s'.loaded) ∧ k ∈ s'.loaded := by
  intro fuel
  induction fuel with
  | zero => intro k s _ _ _ _ hrk; omega
  | succ fuel ih =>
      intro k s hInv hkA hkL hLock hrk
      have h3 : k ∉ s.locked := fun hm => absurd (hLock k hm) (lt_irrefl _)
      have hkU : k ∈ U := hInv.attrsU k hkA
      have hInv1 : Inv env A0 U {s with locked := s.locked ++ [k]} :=
        ⟨hInv.nodupA, hInv.nodupL, hInv.loadedSub, hInv.attrsEq, hInv.midEq,
          hInv.pendEq, hInv.attrsU, hInv.loading⟩
      obtain ⟨s2, hres, hInv2, hl2, ha2, hld2, hdl2⟩ :=
        depsRun_ok (B := fuel) (f := loadAttr env fuel) ih (env k).deps
          {s with locked := s.locked ++ [k]} hInv1
          (fun d hd => he.depsA0 k hkU d hd)
          (fun d hd => by have := he.depsRank k hkU d hd; omega)
          (by
            intro d hd j hj
            have hdk : rank d < rank k := he.depsRank k hkU d hd
            rcases List.mem_append.1 hj with hj | hj
            · exact hdk.trans (hLock j hj)
            · rcases List.mem_cons.1 hj with rfl | h
              · exact hdk
              · cases h)
      have hl2' : s2.locked = s.locked ++ [k] := hl2
      have hfz := depsRun_freeze (j := k)
        (fun d t => loadAttr_shape env fuel d t)
        (fun d t a b => loadAttr_freeze env fuel d t k a b)
        (env k).deps {s with locked := s.locked ++ [k]} (by simp) hkA
      rw [hres] at hfz
      have hkL2 : k ∉ s2.loaded := fun hm => hkL (hfz.1.mp hm)
      have hkA2 : k ∈ s2.attributes := ha2 k hkA
      have h4 : (env k).fails = false := he.noFail k hkU
      cases hol : (env k).onLoad with
      | none =>
          have hspawn : effSpawns env k = [] := by simp [effSpawns, hol]
          refine ⟨_, by simp [loadAttr, hkA, hkL, h3, hres, h4, hol]; rfl,
            ?_, ?_, ?_, ?_, ?_⟩
          · exact loadAttr_finish he hInv2 hkA2 hkL2
              (by simp [emit, popLock, hspawn])
              (by simp [emit, popLock, hspawn])
              (by simp [emit, popLock, hspawn])
              (by simp [emit, popLock])
              (by simp [emit, popLock])
          · simp [emit, popLock, hl2', List.dropLast_concat]
          · intro x hx
            simp only [emit, popLock]
            exact ha2 x hx
          · intro x hx
            simp only [emit, popLock]
            simp only [List.mem_append]
            exact Or.inl (hld2 x hx)
          · simp [emit, popLock]
      | some ks =>
          have hspawn : effSpawns env k = ks := by simp [effSpawns, hol]
          have hksnd : ks.Nodup := by
            have := he.spawnsNodup k hkU
            rwa [hspawn] at this
          have hfresh : ∀ x ∈ ks, x ∉ (emit s2
              (.hook k (env k).val (env k).meta)).attributes := by
            intro x hx
            have := spawns_fresh he hInv2 hkL2 hkU x (by rw [hspawn]; exact hx)
            simpa [emit] using this
          have haddgo := addGo_fresh ks
            (emit s2 (.hook k (env k).val (env k).meta)) hksnd hfresh
          have hload2 : (emit s2
              (.hook k (env k).val (env k).meta)).isLoading = true := by
            simpa [emit] using hInv2.loading
          obtain ⟨s3, haddeq⟩ : ∃ s3, addAttributes ks
              (emit s2 (.hook k (env k).val (env k).meta)) = .ok s3 :=
            ⟨_, by simp [addAttributes, haddgo, hload2]; rfl⟩
          obtain ⟨ha3, hp3, hlk3, hld3, hil3, _, hm3, _, _, _⟩ :=
            addAttributes_ok haddeq
          have hm3' := hm3 hload2
          have ha3' : s3.attributes = s2.attributes ++ ks := by
            simpa [emit] using ha3
          have hp3' : s3.pending = s2.pending ++ ks := by
            simpa [emit] using hp3
          have hlk3' : s3.locked = s2.locked := by simpa [emit] using hlk3
          have hld3' : s3.loaded = s2.loaded := by simpa [emit] using hld3
          have hm3'' : s3.midLoad = s2.midLoad ++ ks := by
            simpa [emit] using hm3'
          have hil3' : s3.isLoading = s2.isLoading := by
            simpa [emit] using hil3
          refine ⟨_,
            by simp [loadAttr, hkA, hkL, h3, hres, h4, hol, haddeq]; rfl,
            ?_, ?_, ?_, ?_, ?_⟩
          · refine loadAttr_finish he hInv2 hkA2 hkL2 ?_ ?_ ?_ ?_ ?_
            · simp [emit, popLock, ha3', hspawn]
            · simp [emit, popLock, hp3', hspawn]
            · simp [emit, popLock, hm3'', hspawn]
            · simp [emit, popLock, hld3']
            · simp [emit, popLock, hil3']
          · simp [emit, popLock, hlk3', hl2', List.dropLast_concat]
          · intro x hx
            simp only [emit, popLock, ha3']
            simp only [List.mem_append]
            exact Or.inl (ha2 x hx)
          · intro x hx
            simp only [emit, popLock, hld3']
            simp only [List.mem_append]
            exact Or.inl (hld2 x hx)
          · simp [emit, popLock, hld3']

@[simp] theorem endNew_attributes (ks : List K) (s : LState) :
    (endNew ks s).attributes = s.attributes := by
  induction ks generalizing s with
  | nil => rfl
  | cons k ks ih => simpa [endNew, emit] using ih (emit s (.endLoad k))

@[simp] theorem endNew_locked (ks : List K) (s : LState) :
    (endNew ks s).locked = s.locked := by
  induction ks generalizing s with
  | nil => rfl
  | cons k ks ih => simpa [endNew, emit] using ih (emit s (.endLoad k))

@[simp] theorem endNew_loaded (ks : List K) (s : LState) :
    (endNew ks s).loaded = s.loaded := by
  induction ks generalizing s with
  | nil => rfl
  | cons k ks ih => simpa [endNew, emit] using ih (emit s (.endLoad k))

@[simp] theorem endNew_pending (ks : List K) (s : LState) :
    (endNew ks s).pending = s.pending := by
  induction ks generalizing s with
  | nil => rfl
  | cons k ks ih => simpa [endNew, emit] using ih (emit s (.endLoad k))

@[simp] theorem endNew_midLoad (ks : List K) (s : LState) :
    (endNew ks s).midLoad = s.midLoad := by
  induction ks generalizing s with
  | nil => rfl
  | cons k ks ih => simpa [endNew, emit] using ih (emit s (.endLoad k))

@[simp] theorem endNew_isLoading (ks : List K) (s : LState) :
    (endNew ks s).isLoading = s.isLoading := by
  induction ks generalizing s with
  | nil => rfl
  | cons k ks ih => simpa [endNew, emit] using ih (emit s (.endLoad k))

theorem foldl_erase_append : ∀ (M A : List K), (A ++ M).Nodup →
    M.foldl List.erase (A ++ M) = A := by
  intro M
  induction M with
  | nil => intro A _; simp
  | cons m M ih =>
      intro A hnd
      have hmA : m ∉ A := by
        intro hm
        have := List.nodup_append.1 hnd
        exact this.2.2 hm (by simp)
      have step : (A ++ m :: M).erase m = A ++ M := by
        rw [List.erase_append_right _ hmA, List.erase_cons_head]
      rw [List.foldl_cons, step]
      apply ih
      have hsub : List.Sublist (A ++ M) (A ++ m :: M) :=
        List.Sublist.append_left (List.sublist_cons_self m M) A
      exact hnd.sublist hsub

/-- `_reset_attributes` takes any state satisfying the loader invariant
back to the construction-time registry: all mid-load attributes forgotten,
nothing loaded, everything pending. -/
theorem reset_clean {env : Env} {A0 U : List K} {s : LState}
    (hInv : Inv env A0 U s) :
    (reset s).attributes = A0 ∧ (reset s).pending = A0 ∧
    (reset s).loaded = [] ∧ (reset s).midLoad = [] ∧
    (reset s).locked = s.locked ∧ (reset s).isLoading = s.isLoading := by
  have hattrs : (reset s).attributes = A0 := by
    simp only [reset, resetMid_attributes, resetDel_attributes]
    have h1 : s.attributes = A0 ++ s.midLoad := by
      rw [hInv.attrsEq, hInv.midEq]
    rw [h1]
    apply foldl_erase_append
    rw [← h1]
    exact hInv.nodupA
  refine ⟨hattrs, ?_, by simp [reset], by simp [reset], by simp [reset],
    by simp [reset]⟩
  show (reset s).attributes = A0
  exact hattrs

/-- A clean state (registry `A0`, nothing loaded or mid-load, everything
pending) satisfies the invariant. -/
theorem Inv_clean {env : Env} {A0 U : List K} (hnd : A0.Nodup)
    (hU : ∀ x ∈ A0, x ∈ U) {s : LState} (ha : s.attributes = A0)
    (hl : s.loaded = []) (hm : s.midLoad = []) (hp : s.pending = A0)
    (hload : s.isLoading = true) : Inv env A0 U s := by
  refine ⟨by rw [ha]; exact hnd, by rw [hl]; exact List.nodup_nil, ?_, ?_,
    ?_, ?_, ?_, hload⟩
  · intro x hx; rw [hl] at hx; cases hx
  · rw [ha, hl]; simp
  · rw [hm, hl]; simp
  · rw [hp, ha, hl]
    have : ∀ x ∈ A0, (fun x => decide (x ∉ ([] : List K))) x = true := by
      intro x _; simp
    exact (List.filter_eq_self.2 this).symm
  · intro x hx; rw [ha] at hx; exact hU x hx

theorem reset_Inv {env : Env} {A0 U : List K} {s : LState}
    (hInv : Inv env A0 U s) : Inv env A0 U (reset s) := by
  obtain ⟨h1, h2, h3, h4, h5, h6⟩ := reset_clean hInv
  have hnd : A0.Nodup := by
    have := hInv.nodupA
    rw [hInv.attrsEq] at this
    exact (List.nodup_append.1 this).1
  have hU : ∀ x ∈ A0, x ∈ U := by
    intro x hx
    exact hInv.attrsU x (by rw [hInv.attrsEq]; exact List.mem_append_left _ hx)
  exact Inv_clean hnd hU h1 h3 h4 h2 (h6.trans hInv.loading)

/-- Keys of `U` not yet loaded: the termination measure of the final
pending loop. -/
def remaining (U : List K) (s : LState) : Nat :=
  (U.toFinset.filter (fun x => x ∉ s.loaded)).card

/-- The final `while self._pending_keys:` loop terminates and empties the
pending set, given enough fuel for the remaining keys plus the maximal
dependency depth. -/
theorem finalLoop_ok {env : Env} {A0 U : List K} {rank : K → Nat}
    (he : EnvOK env A0 U rank) (R : Nat) (hR : ∀ x ∈ U, rank x < R) :
    ∀ (fuel : Nat) (s : LState), Inv env A0 U s → s.locked = [] →
      remaining U s + R + 1 ≤ fuel →
      ∃ s', finalLoop env fuel s = .ok s' ∧ Inv env A0 U s' ∧
        s'.pending = [] := by
  intro fuel
  induction fuel with
  | zero => intro s _ _ h; omega
  | succ fuel ih =>
      intro s hInv hlock hfuel
      cases hp : s.pending with
      | nil => exact ⟨s, by simp [finalLoop, hp], hInv, hp⟩
      | cons k rest =>
          have hk : k ∈ s.pending := by rw [hp]; simp
          rw [hInv.pendEq] at hk
          obtain ⟨hkA, hkp⟩ := List.mem_filter.1 hk
          have hkL : k ∉ s.loaded := of_decide_eq_true hkp
          have hkU := hInv.attrsU k hkA
          have hkfin : k ∈ U.toFinset.filter (fun x => x ∉ s.loaded) :=
            Finset.mem_filter.2 ⟨List.mem_toFinset.2 hkU, hkL⟩
          have hpos : 1 ≤ remaining U s := by
            have := Finset.card_pos.2 ⟨k, hkfin⟩
            exact this
          have hrk : rank k < fuel + 1 := by
            have := hR k hkU
            omega
          obtain ⟨s1, hok, hInv1, hl1, ha1, hld1, hkl1⟩ :=
            loadAttr_ok he (fuel + 1) k s hInv hkA hkL
              (by rw [hlock]; intro j hj; cases hj) hrk
          have hsub : U.toFinset.filter (fun x => x ∉ s1.loaded) ⊆
              U.toFinset.filter (fun x => x ∉ s.loaded) := by
            intro x hx
            obtain ⟨hx1, hx2⟩ := Finset.mem_filter.1 hx
            refine Finset.mem_filter.2 ⟨hx1, ?_⟩
            intro hm
            exact hx2 (hld1 x hm)
          have hknot : k ∉ U.toFinset.filter (fun x => x ∉ s1.loaded) := by
            intro hm
            exact (Finset.mem_filter.1 hm).2 hkl1
          have hdec : remaining U s1 < remaining U s := by
            apply Finset.card_lt_card
            exact (Finset.ssubset_iff_of_subset hsub).2 ⟨k, hkfin, hknot⟩
          obtain ⟨s', h1, h2, h3⟩ := ih s1 hInv1 (hl1.trans hlock)
            (by unfold remaining at *; omega)
          have heq : finalLoop env (fuel + 1) s = finalLoop env fuel s1 := by
            simp [finalLoop, hp, hok]
          exact ⟨s', by rw [heq]; exact h1, h2, h3⟩

/-- All loading phases (per-config reset + config reads, then the final
reset + pending loop) succeed and end with an empty pending set. -/
theorem phases_ok {env : Env} {A0 U : List K} {rank : K → Nat}
    (he : EnvOK env A0 U rank) (R : Nat) (hR : ∀ x ∈ U, rank x < R) :
    ∀ (cfgs : List (List K)) (fuel : Nat) (s : LState), Inv env A0 U s →
      s.locked = [] → (∀ c ∈ cfgs, ∀ d ∈ c, d ∈ A0) →
      U.toFinset.card + R + 1 ≤ fuel →
      ∃ s', phases env fuel cfgs s = .ok s' ∧ Inv env A0 U s' ∧
        s'.pending = [] := by
  intro cfgs
  induction cfgs with
  | nil =>
      intro fuel s hInv hlock hcfg hfuel
      have hInvR := reset_Inv hInv
      have hlockR : (reset s).locked = [] := by
        rw [(reset_clean hInv).2.2.2.2.1]
        exact hlock
      have hrem : remaining U (reset s) ≤ U.toFinset.card :=
        Finset.card_filter_le _ _
      obtain ⟨s', h1, h2, h3⟩ := finalLoop_ok he R hR fuel (reset s) hInvR
        hlockR (by omega)
      exact ⟨s', by simp [phases]; exact h1, h2, h3⟩
  | cons c cfgs ih =>
      intro fuel s hInv hlock hcfg hfuel
      have hInvR := reset_Inv hInv
      have hlockR : (reset s).locked = [] := by
        rw [(reset_clean hInv).2.2.2.2.1]
        exact hlock
      obtain ⟨s1, hres, hInv1, hl1, _, _, _⟩ :=
        depsRun_ok (B := fuel) (f := loadAttr env fuel)
          (fun k' s' a b c' d' e' => loadAttr_ok he fuel k' s' a b c' d' e')
          c (reset s) hInvR
          (fun d hd => hcfg c (by simp) d hd)
          (by
            intro d hd
            have hdU : d ∈ U := he.a0U d (hcfg c (by simp) d hd)
            have := hR d hdU
            omega)
          (by
            intro d hd j hj
            rw [hlockR] at hj
            cases hj)
      obtain ⟨s', h1, h2, h3⟩ := ih fuel s1 hInv1 (hl1.trans hlockR)
        (fun c' hc' => hcfg c' (List.mem_cons_of_mem c hc')) hfuel
      have heq : phases env fuel (c :: cfgs) s = phases env fuel cfgs s1 := by
        simp [phases, resolveDeps, hres]
      exact ⟨s', by rw [heq]; exact h1, h2, h3⟩

/-- C3: for a loader whose parameters' dependency graph is acyclic
(witnessed by the rank function in `EnvOK`), with dependencies among the
construction-registered attributes, never-failing picks, fresh
finite-universe hook registrations and configs that read only registered
attributes, `Loader.load()` terminates — explicit fuel
`|U| + R + 1` suffices — and every registered attribute ends loaded,
exactly once (the loaded list has no duplicates and coincides with the
registry), even though resolving attributes registers new attributes
mid-loop (the hooks' spawns). -/
theorem C3_load_terminates {env : Env} {A0 U : List K} {rank : K → Nat}
    (R : Nat) (he : EnvOK env A0 U rank) (hR : ∀ x ∈ U, rank x < R)
    (cfgs : List (List K)) (hcfg : ∀ c ∈ cfgs, ∀ d ∈ c, d ∈ A0)
    (s0 : LState) (hinit : initLoader A0 = .ok s0) :
    ∃ s', load env (U.toFinset.card + R + 1) cfgs s0 = .ok s' ∧
      s'.pending = [] ∧ s'.loaded.Nodup ∧
      (∀ x, x ∈ s'.loaded ↔ x ∈ s'.attributes) := by
  obtain ⟨ha, hp, hlk, hld, hil, _, _, _, _, _⟩ := addAttributes_ok hinit
  have hInv1 : Inv env A0 U (beginAll {s0 with isLoading := true}) := by
    refine Inv_clean he.nodupA0 he.a0U ?_ ?_ ?_ ?_ ?_
    · show (beginNew _ _).attributes = A0
      simpa using ha
    · show (beginNew _ _).loaded = []
      simpa using hld
    · show (beginNew _ _).midLoad = []
      have hm : s0.midLoad = [] := by
        cases hgo : addGo A0 emptyState with
        | error p => simp [initLoader, addAttributes, hgo] at hinit
        | ok t =>
            have hrec := (addGo_ok A0 emptyState t hgo).1
            simp [initLoader, addAttributes, hgo] at hinit
            subst hrec
            simp [emptyState] at hinit
            rw [← hinit]
        -- no branch for `isLoading` needed: emptyState.isLoading = false
      simpa using hm
    · show (beginNew _ _).pending = A0
      simpa using hp
    · show (beginNew _ _).isLoading = true
      simp
  have hlock1 : (beginAll {s0 with isLoading := true}).locked = [] := by
    show (beginNew _ _).locked = []
    simpa using hlk
  obtain ⟨s2, h1, h2, h3⟩ := phases_ok he R hR cfgs
    (U.toFinset.card + R + 1) (beginAll {s0 with isLoading := true}) hInv1
    hlock1 hcfg (le_refl _)
  refine ⟨endAll s2, ?_, ?_, ?_, ?_⟩
  · simp [load, h1, endAll]
  · show (endNew _ _).pending = []
    simpa using h3
  · show (endNew _ _).loaded.Nodup
    simpa using h2.nodupL
  · intro x
    show x ∈ (endNew _ _).loaded ↔ x ∈ (endNew _ _).attributes
    simp only [endNew_loaded, endNew_attributes]
    constructor
    · exact h2.loadedSub x
    · intro hx
      by_contra hnx
      have hmem : x ∈ s2.pending := by
        rw [h2.pendEq, List.mem_filter]
        exact ⟨hx, by simp [hnx]⟩
      rw [h3] at hmem
      cases hmem

/-- Witness environment: key 0 has an `on_load` hook that registers the
fresh key 2; keys 1 and 2 both depend on key 0; keys 0 and 1 are the
construction attributes, and one config reads key 1 during its own load. -/
def envW : Env := fun k =>
  if k = 0 then ⟨[], false, some [2], 5, 7⟩
  else if k = 1 then ⟨[0], false, none, 6, 8⟩
  else if k = 2 then ⟨[0], false, none, 9, 9⟩
  else ⟨[], false, none, 0, 0⟩

/-- Rank function witnessing acyclicity of `envW`'s dependency graph. -/
def rankW : K → Nat := fun k => if k = 0 then 0 else 1

theorem C3_witness :
    ∃ s', load envW ((([0, 1, 2] : List K).toFinset.card) + 2 + 1) [[1]]
        ⟨[0, 1], [], [], [0, 1], [], false, []⟩ = .ok s' ∧
      s'.pending = [] ∧ s'.loaded.Nodup ∧
      (∀ x, x ∈ s'.loaded ↔ x ∈ s'.attributes) :=
  @C3_load_terminates envW [0, 1] [0, 1, 2] rankW 2
    ⟨by decide, by decide, by decide, by decide, by decide, by decide,
      by decide, by decide, by decide⟩
    (by decide) [[1]] (by decide) ⟨[0, 1], [], [], [0, 1], [], false, []⟩ rfl

end Byoc
